import Mathlib

/-!
Verification development for the agent-cli repository.

Strings from the TypeScript source are modelled as `List Char`; a JS value
that may be `undefined` or the empty string (both falsy) is modelled as the
empty list `[]` when the code only ever distinguishes truthiness.
-/

namespace AgentCli

abbrev LC := List Char

/-- Whitespace recognised by `String.prototype.trim` (the forms that occur here). -/
def isWsChar (c : Char) : Bool :=
  c = ' ' || c = '\t' || c = '\n' || c = '\r'

/-- `s.trimEnd()`. -/
def trimRight (l : LC) : LC := (l.reverse.dropWhile isWsChar).reverse

/-- `s.trim()`. -/
def trimChars (l : LC) : LC := trimRight (l.dropWhile isWsChar)

/-! ### The brace-balance scanner

Embedded from `convertOpenAIStreamChunk` (src/src/providers/openai-provider.ts,
lines 283-313): a character scan tracking brace depth, string literals and
backslash escapes. -/

structure ScanState where
  braceCount : Int
  inString : Bool
  escaped : Bool
deriving DecidableEq, Repr

def scanInit : ScanState := ⟨0, false, false⟩

/-- One iteration of the `for` loop in the completeness check. -/
def scanStep (st : ScanState) (c : Char) : ScanState :=
  if st.escaped then { st with escaped := false }
  else if c = '\\' then { st with escaped := true }
  else if c = '"' then { st with inString := !st.inString }
  else if !st.inString then
    if c = '{' then { st with braceCount := st.braceCount + 1 }
    else if c = '}' then { st with braceCount := st.braceCount - 1 }
    else st
  else st

def scanList (l : LC) (st : ScanState) : ScanState := l.foldl scanStep st

/-! ### A JSON parser modelling `JSON.parse`

`convertOpenAIStreamChunk` and `executeTool` call the JS built-in
`JSON.parse`; it is modelled by a recursive-descent parser on `List Char`.
Each function returns `some (consumed, rest)` with `input = consumed ++ rest`.
The string rule is lenient (a backslash escapes any next character), matching
the view taken by the brace scanner above. -/

def numberChar (c : Char) : Bool :=
  c.isDigit || c = '-' || c = '+' || c = '.' || c = 'e' || c = 'E'

/-- Consume the body of a string literal after the opening quote,
including the closing quote. -/
def parseStringBody : LC → Option (LC × LC)
  | [] => none
  | '"' :: r => some (['"'], r)
  | '\\' :: c :: r => (parseStringBody r).map (fun p => ('\\' :: c :: p.1, p.2))
  | ['\\'] => none
  | c :: r => (parseStringBody r).map (fun p => (c :: p.1, p.2))

/-- Check a fixed keyword (`true` / `false` / `null`) tail. -/
def parseKeyword (kw : LC) (l : LC) : Option (LC × LC) :=
  if l.take kw.length = kw then some (kw, l.drop kw.length) else none

mutual

def parseValue : Nat → LC → Option (LC × LC)
  | 0, _ => none
  | _ + 1, [] => none
  | fuel + 1, c :: r =>
    if c = '{' then (parseObjectRest fuel r).map (fun p => (c :: p.1, p.2))
    else if c = '[' then (parseArrayRest fuel r).map (fun p => (c :: p.1, p.2))
    else if c = '"' then (parseStringBody r).map (fun p => (c :: p.1, p.2))
    else if c = 't' then (parseKeyword ['r', 'u', 'e'] r).map (fun p => (c :: p.1, p.2))
    else if c = 'f' then (parseKeyword ['a', 'l', 's', 'e'] r).map (fun p => (c :: p.1, p.2))
    else if c = 'n' then (parseKeyword ['u', 'l', 'l'] r).map (fun p => (c :: p.1, p.2))
    else if numberChar c then some (c :: r.takeWhile numberChar, r.dropWhile numberChar)
    else none

/-- After the opening `{` of an object. -/
def parseObjectRest : Nat → LC → Option (LC × LC)
  | 0, _ => none
  | fuel + 1, l =>
    let w := l.takeWhile isWsChar
    match l.dropWhile isWsChar with
    | '}' :: r => some (w ++ ['}'], r)
    | l2 => (parseMembers fuel l2).map (fun p => (w ++ p.1, p.2))

/-- A nonempty member list of an object, including the closing `}`. -/
def parseMembers : Nat → LC → Option (LC × LC)
  | 0, _ => none
  | fuel + 1, l =>
    match l with
    | '"' :: r =>
      match parseStringBody r with
      | none => none
      | some (ks, r1) =>
        let w1 := r1.takeWhile isWsChar
        match r1.dropWhile isWsChar with
        | ':' :: r2 =>
          let w2 := r2.takeWhile isWsChar
          match parseValue fuel (r2.dropWhile isWsChar) with
          | none => none
          | some (vs, r3) =>
            let w3 := r3.takeWhile isWsChar
            match r3.dropWhile isWsChar with
            | ',' :: r4 =>
              let w4 := r4.takeWhile isWsChar
              (parseMembers fuel (r4.dropWhile isWsChar)).map
                (fun p => ('"' :: ks ++ w1 ++ ':' :: w2 ++ vs ++ w3 ++ ',' :: w4 ++ p.1, p.2))
            | '}' :: r4 => some ('"' :: ks ++ w1 ++ ':' :: w2 ++ vs ++ w3 ++ ['}'], r4)
            | _ => none
        | _ => none
    | _ => none

/-- After the opening `[` of an array. -/
def parseArrayRest : Nat → LC → Option (LC × LC)
  | 0, _ => none
  | fuel + 1, l =>
    let w := l.takeWhile isWsChar
    match l.dropWhile isWsChar with
    | ']' :: r => some (w ++ [']'], r)
    | l2 => (parseElems fuel l2).map (fun p => (w ++ p.1, p.2))

/-- A nonempty element list of an array, including the closing `]`. -/
def parseElems : Nat → LC → Option (LC × LC)
  | 0, _ => none
  | fuel + 1, l =>
    match parseValue fuel l with
    | none => none
    | some (vs, r1) =>
      let w1 := r1.takeWhile isWsChar
      match r1.dropWhile isWsChar with
      | ',' :: r2 =>
        let w2 := r2.takeWhile isWsChar
        (parseElems fuel (r2.dropWhile isWsChar)).map
          (fun p => (vs ++ w1 ++ ',' :: w2 ++ p.1, p.2))
      | ']' :: r2 => some (vs ++ w1 ++ [']'], r2)
      | _ => none

end

/-- `JSON.parse(s)` succeeds: a single JSON value surrounded by whitespace only. -/
def jsonParseOk (l : LC) : Bool :=
  match parseValue (2 * l.length + 4) (l.dropWhile isWsChar) with
  | some (_, r) => (r.dropWhile isWsChar).isEmpty
  | none => false

/-! ### The stream reassembler state

Embedded from `convertOpenAIStreamChunk` (src/src/providers/openai-provider.ts,
lines 229-352) and the `toolCallBuffer` threading of `chatStream`
(lines 113-120). The JS buffer object has numeric-string keys, which iterate
in ascending order, so the buffer is kept as an ascending association list. -/

structure BufEntry where
  id : LC
  name : LC
  args : LC
deriving DecidableEq, Repr

/-- One element of a `delta.tool_calls` array; `[]` models an absent
(or empty, equally falsy) part. -/
structure ToolFrag where
  index : Nat
  idPart : LC
  namePart : LC
  argsPart : LC
deriving DecidableEq, Repr

/-- `chunk.choices[0].delta` together with `chunk.choices[0].finish_reason`. -/
structure OADelta where
  content : LC
  tool_calls : Option (List ToolFrag)
  finish : Option LC
deriving DecidableEq, Repr

abbrev Buffer := List (Nat × BufEntry)

def bufFind (b : Buffer) (i : Nat) : Option BufEntry :=
  (b.find? (fun e => e.1 = i)).map Prod.snd

/-- Write the entry for key `i`, keeping keys in ascending (JS numeric key) order. -/
def bufSet : Buffer → Nat → BufEntry → Buffer
  | [], i, e => [(i, e)]
  | (j, x) :: rest, i, e =>
    if i = j then (i, e) :: rest
    else if i < j then (i, e) :: (j, x) :: rest
    else (j, x) :: bufSet rest i e

/-- The body of the `for (const toolCallDelta of delta.tool_calls)` loop
(lines 246-267): create the entry on first sight of an index, afterwards
concatenate name and arguments parts. -/
def applyFragment (b : Buffer) (f : ToolFrag) : Buffer :=
  match bufFind b f.index with
  | none => bufSet b f.index ⟨f.idPart, f.namePart, f.argsPart⟩
  | some e =>
    bufSet b f.index
      { e with
        name := if f.namePart.isEmpty then e.name else e.name ++ f.namePart
        args := if f.argsPart.isEmpty then e.args else e.args ++ f.argsPart }

/-- The argument-completeness validation of the filter (lines 271-321):
trim, require surrounding braces, require the brace scan to close cleanly,
then require `JSON.parse` to succeed. -/
def isCompleteJsonArgs (args : LC) : Bool :=
  let t := trimChars args
  (match t with | '{' :: _ => true | _ => false) &&
  (match t.getLast? with | some '}' => true | _ => false) &&
  (let st := scanList t scanInit
   decide (st.braceCount = 0) && !st.inString) &&
  jsonParseOk t

/-- The filter predicate of lines 270-323: a buffered call is complete when it
has a name, a nonempty argument string, and the arguments validate. -/
def isCompleteEntry (e : BufEntry) : Bool :=
  !e.name.isEmpty && !e.args.isEmpty && isCompleteJsonArgs e.args

/-- A universal `StreamingChunk` as produced by a provider
(src/src/providers/openai-provider.ts; types in llm-types). -/
inductive SChunk where
  | content (s : LC)
  | toolCalls (tcs : List BufEntry)
  | done (reason : LC)
  | error (msg : LC)
  | response (s : LC)
deriving DecidableEq, Repr

/-- `convertOpenAIStreamChunk` (lines 229-352): one delta against the pending
buffer, returning the converted chunk (if any) and the updated buffer. -/
def convertOpenAIStreamChunk (d : OADelta) (buf : Buffer) : Option SChunk × Buffer :=
  if !d.content.isEmpty then (some (.content d.content), buf)
  else
    match d.tool_calls with
    | some frags =>
      let buf1 := frags.foldl applyFragment buf
      let completed := (buf1.filter (fun e => isCompleteEntry e.2)).map Prod.snd
      if !completed.isEmpty then
        (some (.toolCalls completed), buf1.filter (fun e => !isCompleteEntry e.2))
      else
        match d.finish with
        | some r => (some (.done r), buf1)
        | none => (none, buf1)
    | none =>
      match d.finish with
      | some r => (some (.done r), buf)
      | none => (none, buf)

/-- The `for await` loop of `chatStream` (lines 115-120): convert every raw
chunk, yield the non-null conversions, thread the buffer through. -/
def runConvert : List OADelta → Buffer → List SChunk × Buffer
  | [], buf => ([], buf)
  | d :: ds, buf =>
    let r1 := convertOpenAIStreamChunk d buf
    let rest := runConvert ds r1.2
    (match r1.1 with
     | some c => c :: rest.1
     | none => rest.1, rest.2)

/-- A reassembled turn; built from the streamed chunks the way
`processUserMessage` reconstructs the complete response
(universal-agent-base, lines 205-219). -/
structure Turn where
  content : LC
  toolCalls : List BufEntry
deriving DecidableEq, Repr

def collectTurn (outs : List SChunk) : Turn :=
  { content := (outs.map (fun c => match c with | .content s => s | _ => [])).flatten
    toolCalls := (outs.map (fun c => match c with | .toolCalls t => t | _ => [])).flatten }

/-- Shorthand for embedding TypeScript string literals. -/
def chars (s : String) : LC := s.data

/-- Characters the brace scanner treats as inert (in and out of strings). -/
def plainChar (c : Char) : Bool :=
  !(c = '\\' || c = '"' || c = '{' || c = '}')

/-- A text segment that leaves the scanner state unchanged and whose prefixes
never push the brace count below the entry count. Every complete JSON value
text is such a segment. -/
def SegNeutral (X : LC) : Prop :=
  (∀ cnt : Int, scanList X ⟨cnt, false, false⟩ = ⟨cnt, false, false⟩) ∧
  (∀ (cnt : Int) (p q : LC), X = p ++ q → cnt ≤ (scanList p ⟨cnt, false, false⟩).braceCount)

/-- A text segment closing one brace exactly at its final character, as the
tail of an object does: the full scan drops the count by one, while every
proper prefix keeps the count at or above the entry count. -/
def SegClosing (X : LC) : Prop :=
  (∀ cnt : Int, scanList X ⟨cnt, false, false⟩ = ⟨cnt - 1, false, false⟩) ∧
  (∀ (cnt : Int) (p q : LC), X = p ++ q → q ≠ [] → cnt ≤ (scanList p ⟨cnt, false, false⟩).braceCount)

/-- A raw streaming chunk carrying a single tool-call fragment. -/
def fragDelta (f : ToolFrag) : OADelta := ⟨[], some [f], none⟩

/-- The delta sequence for one tool call whose argument string arrives split
into `frags`: the id and the name arrive on the first fragment, the argument
parts across all of them. -/
def argFragDeltas (idp name : LC) (frags : List LC) : List OADelta :=
  match frags with
  | [] => []
  | f :: rest => fragDelta ⟨0, idp, name, f⟩ :: rest.map (fun a => fragDelta ⟨0, [], [], a⟩)

/-! ### The legacy agent loop

Embedded from `processUserMessageStreamLegacy`, `executeTool` and
`messageReducer` in the `GrokAgent` class (src/unnamed/part_000,
lines 326-624). Strings stay `List Char`; the token counter and the
`chatHistory` mirror (a UI-side duplicate of `legacyMessages`) are outside
the embedded state; `token_count` chunks are omitted from the output model.
The provider (`grokClient.chatStream`) is a parameter mapping the current
message list to the list of raw deltas streamed for that request, and the
abort signal is modelled by the index of the cancellation check from which
`abortController.signal.aborted` reads true. -/

/-- A `GrokToolCall`: id plus function name and raw JSON arguments. -/
structure ToolCallReq where
  id : LC
  name : LC
  args : LC
deriving DecidableEq, Repr

/-- A `ToolResult` (src/types): `[]` models an absent output/error field. -/
structure ToolResult where
  success : Bool
  output : LC
  error : LC
deriving DecidableEq, Repr

/-- The tool implementations behind the `executeTool` switch. Each handler
takes the raw JSON argument string (argument destructuring is folded into
the handler) and may throw, modelled by `Except`. -/
structure ToolImpls where
  viewFile : LC → Except LC ToolResult
  createFile : LC → Except LC ToolResult
  strReplace : LC → Except LC ToolResult
  bash : LC → Except LC ToolResult
  createTodo : LC → Except LC ToolResult
  updateTodo : LC → Except LC ToolResult

/-- The `catch` of `executeTool`: a thrown handler error becomes a failure
`ToolResult`. -/
def runCatch (r : Except LC ToolResult) : ToolResult :=
  match r with
  | .ok v => v
  | .error e => ⟨false, [], chars "Tool execution error: " ++ e⟩

/-- `executeTool` (src/unnamed/part_000, lines 580-624): parse the JSON
arguments (a parse failure is caught like any thrown error), then dispatch on
the tool name; an unknown name returns a failure result. -/
def executeTool (impls : ToolImpls) (tc : ToolCallReq) : ToolResult :=
  if jsonParseOk tc.args = false then
    ⟨false, [], chars "Tool execution error: " ++ chars "invalid JSON arguments"⟩
  else if tc.name = chars "view_file" then runCatch (impls.viewFile tc.args)
  else if tc.name = chars "create_file" then runCatch (impls.createFile tc.args)
  else if tc.name = chars "str_replace_editor" then runCatch (impls.strReplace tc.args)
  else if tc.name = chars "bash" then runCatch (impls.bash tc.args)
  else if tc.name = chars "create_todo_list" then runCatch (impls.createTodo tc.args)
  else if tc.name = chars "update_todo_list" then runCatch (impls.updateTodo tc.args)
  else ⟨false, [], chars "Unknown tool: " ++ tc.name⟩

/-- The switch arm selected for a name, for stating facts about
`executeTool` uniformly over the six registered tools. -/
def lookupImpl (impls : ToolImpls) (name : LC) : Option (LC → Except LC ToolResult) :=
  if name = chars "view_file" then some impls.viewFile
  else if name = chars "create_file" then some impls.createFile
  else if name = chars "str_replace_editor" then some impls.strReplace
  else if name = chars "bash" then some impls.bash
  else if name = chars "create_todo_list" then some impls.createTodo
  else if name = chars "update_todo_list" then some impls.updateTodo
  else none

/-- A member of a raw delta's `tool_calls` array; merged by array position. -/
structure LToolFrag where
  idPart : LC
  namePart : LC
  argsPart : LC
deriving DecidableEq, Repr

/-- One raw streaming chunk's `choices[0].delta`. -/
structure LegacyDelta where
  content : LC
  tool_calls : Option (List LToolFrag)
deriving DecidableEq, Repr

/-- A tool call being accumulated by `messageReducer`. -/
structure AccToolCall where
  id : LC
  name : LC
  args : LC
deriving DecidableEq, Repr

/-- The accumulated assistant message built by `messageReducer`. -/
structure AccMsg where
  content : Option LC
  tool_calls : Option (List AccToolCall)
deriving DecidableEq, Repr

/-- Per-field merge of `messageReducer` on a tool-call object: an undefined
field is set, two strings are concatenated (`[]` models undefined, making
both cases plain concatenation). -/
def mergeAccTC (a : AccToolCall) (f : LToolFrag) : AccToolCall :=
  ⟨a.id ++ f.idPart, a.name ++ f.namePart, a.args ++ f.argsPart⟩

/-- Array merge of `messageReducer`: position-wise recursive merge, missing
positions are created from the delta. -/
def mergeTCList : List AccToolCall → List LToolFrag → List AccToolCall
  | acc, [] => acc
  | [], f :: fs => ⟨f.idPart, f.namePart, f.argsPart⟩ :: mergeTCList [] fs
  | a :: acc, f :: fs => mergeAccTC a f :: mergeTCList acc fs

/-- `messageReducer` (src/unnamed/part_000, lines 328-356) specialised to the
`{content, tool_calls}` delta shape it receives: set-when-undefined,
concatenate strings, merge arrays position-wise. -/
def reduceDelta (acc : AccMsg) (d : LegacyDelta) : AccMsg :=
  { content :=
      if d.content.isEmpty then acc.content
      else
        match acc.content with
        | none => some d.content
        | some c => some (c ++ d.content)
    tool_calls :=
      match d.tool_calls with
      | none => acc.tool_calls
      | some fs =>
        match acc.tool_calls with
        | none => some (fs.map (fun f => ⟨f.idPart, f.namePart, f.argsPart⟩))
        | some acc2 => some (mergeTCList acc2 fs) }

/-- A legacy `StreamingChunk` (the `token_count` variant is omitted). -/
inductive LChunk where
  | content (s : LC)
  | toolCalls (tcs : List AccToolCall)
  | toolResult (tc : AccToolCall) (res : ToolResult)
  | done
deriving DecidableEq, Repr

/-- One entry of `legacyMessages` (a `GrokMessage`). -/
inductive LMsg where
  | user (content : LC)
  | assistant (content : LC) (tool_calls : Option (List AccToolCall))
  | tool (content : LC) (tool_call_id : LC)
deriving DecidableEq, Repr

/-- Low-level events of one run, recorded in program order: provider
consultations, history appends and tool dispatches. -/
inductive LEvent where
  | consult (msgs : List LMsg)
  | appendAssistant (m : LMsg)
  | execTool (tc : ToolCallReq)
  | appendToolResult (m : LMsg)
deriving DecidableEq, Repr

/-- The abort signal: reads true from check number `a` on (`none` = the
signal is never raised). -/
def abortFires (abortAt : Option Nat) (k : Nat) : Bool :=
  match abortAt with
  | some a => a ≤ k
  | none => false

def cancelNotice : LC := chars "\n\n[Operation cancelled by user]"

def capNotice : LC :=
  chars "\n\nMaximum tool execution rounds reached. Stopping to prevent infinite loops."

/-- `const maxToolRounds = 30`. -/
def maxToolRounds : Nat := 30

structure ConsumeResult where
  outs : List LChunk
  acc : AccMsg
  yielded : Bool
  checks : Nat
  cancelled : Bool
deriving Repr

/-- The `for await (const chunk of stream)` loop (lines 414-465): per chunk,
check the abort signal, fold the delta into the accumulated message, yield
the tool calls once a named one appears, and stream content. -/
def consumeDeltas (abortAt : Option Nat) :
    List LegacyDelta → AccMsg → Bool → Nat → ConsumeResult
  | [], acc, y, k => ⟨[], acc, y, k, false⟩
  | d :: ds, acc, y, k =>
    if abortFires abortAt k then
      ⟨[.content cancelNotice, .done], acc, y, k + 1, true⟩
    else
      let acc1 := reduceDelta acc d
      let yieldNow := !y &&
        (match acc1.tool_calls with
         | some tcs => !tcs.isEmpty && tcs.any (fun t => !t.name.isEmpty)
         | none => false)
      let outs1 := (if yieldNow then [LChunk.toolCalls (acc1.tool_calls.getD [])] else []) ++
        (if d.content.isEmpty then [] else [LChunk.content d.content])
      let rest := consumeDeltas abortAt ds acc1 (y || yieldNow) (k + 1)
      ⟨outs1 ++ rest.outs, rest.acc, rest.yielded, rest.checks, rest.cancelled⟩

structure ExecResult where
  outs : List LChunk
  events : List LEvent
  msgs : List LMsg
  checks : Nat
  cancelled : Bool
deriving Repr

/-- The content recorded for a tool result in `legacyMessages`
(lines 527-533): output or `"Success"`, error or `"Error"`. -/
def toolResultContent (res : ToolResult) : LC :=
  if res.success then (if res.output.isEmpty then chars "Success" else res.output)
  else (if res.error.isEmpty then chars "Error" else res.error)

def toReq (tc : AccToolCall) : ToolCallReq := ⟨tc.id, tc.name, tc.args⟩

/-- The tool-role message appended after executing `tc`. -/
def toolMsgOf (impls : ToolImpls) (tc : AccToolCall) : LMsg :=
  LMsg.tool (toolResultContent (executeTool impls (toReq tc))) tc.id

/-- The `for (const toolCall of accumulatedMessage.tool_calls)` loop
(lines 496-534): per call, check the abort signal, execute, append the
result message, yield the result chunk, then move to the next call. -/
def execToolsLoop (impls : ToolImpls) (abortAt : Option Nat) :
    List AccToolCall → List LMsg → Nat → ExecResult
  | [], msgs, k => ⟨[], [], msgs, k, false⟩
  | tc :: tcs, msgs, k =>
    if abortFires abortAt k then
      ⟨[.content cancelNotice, .done], [], msgs, k + 1, true⟩
    else
      let res := executeTool impls (toReq tc)
      let toolMsg := toolMsgOf impls tc
      let rest := execToolsLoop impls abortAt tcs (msgs ++ [toolMsg]) (k + 1)
      ⟨LChunk.toolResult tc res :: rest.outs,
       LEvent.execTool (toReq tc) :: LEvent.appendToolResult toolMsg :: rest.events,
       rest.msgs, rest.checks, rest.cancelled⟩

inductive RoundExit where
  | cancelled
  | noTools
  | tools
deriving DecidableEq, Repr

structure RoundResult where
  outs : List LChunk
  events : List LEvent
  msgs : List LMsg
  checks : Nat
  exit : RoundExit
deriving Repr

/-- One iteration of the `while (toolRounds < maxToolRounds)` loop
(lines 392-540): abort check, provider stream consumption, append of the
assistant message, then sequential tool execution when tool calls are
present. -/
def processRound (p : List LMsg → List LegacyDelta) (impls : ToolImpls)
    (abortAt : Option Nat) (msgs : List LMsg) (k : Nat) : RoundResult :=
  if abortFires abortAt k then
    ⟨[.content cancelNotice, .done], [], msgs, k + 1, .cancelled⟩
  else
    let c := consumeDeltas abortAt (p msgs) ⟨none, none⟩ false (k + 1)
    if c.cancelled then
      ⟨c.outs, [.consult msgs], msgs, c.checks, .cancelled⟩
    else
      let am := LMsg.assistant (c.acc.content.getD []) c.acc.tool_calls
      let msgs1 := msgs ++ [am]
      match c.acc.tool_calls with
      | some (tc :: tcs) =>
        let toolsOut := if c.yielded then [] else [LChunk.toolCalls (tc :: tcs)]
        let e := execToolsLoop impls abortAt (tc :: tcs) msgs1 c.checks
        ⟨c.outs ++ toolsOut ++ e.outs,
         [.consult msgs, .appendAssistant am] ++ e.events,
         e.msgs, e.checks, if e.cancelled then .cancelled else .tools⟩
      | _ => ⟨c.outs, [.consult msgs, .appendAssistant am], msgs1, c.checks, .noTools⟩

structure RunResult where
  outs : List LChunk
  events : List LEvent
  msgs : List LMsg
deriving Repr

/-- The agent loop with its round budget (`maxToolRounds - toolRounds`
remaining rounds): exhausting the budget emits the cap notice before `done`;
a round without tool calls ends with `done`; cancellation ends the run with
the outputs already produced. -/
def legacyLoop (p : List LMsg → List LegacyDelta) (impls : ToolImpls)
    (abortAt : Option Nat) : Nat → List LMsg → Nat → RunResult
  | 0, msgs, _ => ⟨[.content capNotice, .done], [], msgs⟩
  | n + 1, msgs, k =>
    let r := processRound p impls abortAt msgs k
    match r.exit with
    | .cancelled => ⟨r.outs, r.events, r.msgs⟩
    | .noTools => ⟨r.outs ++ [.done], r.events, r.msgs⟩
    | .tools =>
      let rest := legacyLoop p impls abortAt n r.msgs r.checks
      ⟨r.outs ++ rest.outs, r.events ++ rest.events, rest.msgs⟩

/-- `processUserMessageStreamLegacy` (lines 362-578): push the user message,
then drive the round loop with the 30-round budget. -/
def legacyRun (p : List LMsg → List LegacyDelta) (impls : ToolImpls)
    (abortAt : Option Nat) (history : List LMsg) (userText : LC) : RunResult :=
  legacyLoop p impls abortAt maxToolRounds (history ++ [LMsg.user userText]) 0

def isConsult : LEvent → Bool
  | .consult _ => true
  | _ => false

def isAppendEvent : LEvent → Bool
  | .appendAssistant _ => true
  | .appendToolResult _ => true
  | _ => false

def isExecEvent : LEvent → Bool
  | .execTool _ => true
  | _ => false

/-! ### The universal agent base

Embedded from `UniversalAgentBase` (src/unnamed/part_003):
`processUserMessageStream` (lines 126-189), `continueAfterToolExecution`
(lines 244-294), `switchProvider` (lines 41-50), together with the
`handleToolCalls` override of the Grok agent (src/unnamed/part_000, lines
230-274), whose tool executor is a parameter. The provider's `chatStream` is
a parameter mapping the message list to the streamed chunks of that request.
The recursion of `continueAfterToolExecution` has no bound in the source; it
is embedded with explicit fuel, each nesting level consuming one unit, so a
run that exhausts `n` fuel units has performed `n` nested continuation
rounds. -/

/-- A `UniversalMessage`. -/
inductive UMsg where
  | system (content : LC)
  | user (content : LC)
  | assistant (content : LC) (tool_calls : Option (List BufEntry))
  | tool (content : LC) (tool_call_id : LC)
deriving DecidableEq, Repr

structure UniResult where
  outs : List SChunk
  msgs : List UMsg
  consults : Nat
deriving Repr

/-- The content recorded for a tool result message (success output or
error text, with the defaults of part_000 lines 241-247). -/
def uToolMsgContent (res : ToolResult) : LC :=
  if res.success then (if res.output.isEmpty then chars "Success" else res.output)
  else (if res.error.isEmpty then chars "Error" else res.error)

/-- The Grok agent's `handleToolCalls` override (part_000, lines 230-274):
execute each call through the tool executor `h`, append the result as a
tool-role message, and yield the result text as a content chunk. -/
def uniHandleToolCalls (h : BufEntry → ToolResult) :
    List BufEntry → List UMsg → List SChunk × List UMsg
  | [], msgs => ([], msgs)
  | tc :: tcs, msgs =>
    let res := h tc
    let toolMsg := UMsg.tool (uToolMsgContent res) tc.id
    let yieldText :=
      if res.success then (if res.output.isEmpty then chars "Success" else res.output)
      else chars "Error: " ++ (if res.error.isEmpty then chars "Unknown error" else res.error)
    let rest := uniHandleToolCalls h tcs (msgs ++ [toolMsg])
    (SChunk.content yieldText :: rest.1, rest.2)

/-- The `for await (const chunk of stream)` loops of
`processUserMessageStream` (isCont = false) and
`continueAfterToolExecution` (isCont = true): on tool calls, append the
assistant message, run the tools, recurse into a continuation round (the
continuation `contF` of the enclosing round), then keep reading the current
stream. -/
def uniChunkLoop (h : BufEntry → ToolResult) (contF : List UMsg → UniResult)
    (isCont : Bool) :
    List SChunk → List UMsg → LC → UniResult
  | [], msgs, _ => ⟨[], msgs, 0⟩
  | c :: cs, msgs, cur =>
    match c with
    | SChunk.content s =>
      if s.isEmpty then uniChunkLoop h contF isCont cs msgs cur
      else
        let rest := uniChunkLoop h contF isCont cs msgs (cur ++ s)
        ⟨(if isCont then SChunk.response s else SChunk.content s) :: rest.outs,
         rest.msgs, rest.consults⟩
    | SChunk.toolCalls tcs =>
      let am := UMsg.assistant cur (some tcs)
      let hres := uniHandleToolCalls h tcs (msgs ++ [am])
      let cont := contF hres.2
      let rest := uniChunkLoop h contF isCont cs cont.msgs []
      ⟨SChunk.toolCalls tcs :: (hres.1 ++ cont.outs ++ rest.outs), rest.msgs,
       cont.consults + rest.consults⟩
    | SChunk.done reason =>
      if isCont then
        if (trimChars cur).isEmpty then ⟨[SChunk.done reason], msgs, 0⟩
        else ⟨[SChunk.done reason], msgs ++ [UMsg.assistant cur none], 0⟩
      else ⟨[SChunk.done reason], msgs ++ [UMsg.assistant cur none], 0⟩
    | SChunk.error m => ⟨[SChunk.error m], msgs, 0⟩
    | SChunk.response _ => uniChunkLoop h contF isCont cs msgs cur

/-- `continueAfterToolExecution` (part_003, lines 244-294), fuelled: consult
the provider with the updated conversation and process the continuation
stream (which may itself contain further tool calls); each nesting level
consumes one fuel unit. -/
def uniContinue (p : List UMsg → List SChunk) (h : BufEntry → ToolResult) :
    Nat → List UMsg → UniResult
  | 0, msgs => ⟨[], msgs, 0⟩
  | fuel + 1, msgs =>
    let r := uniChunkLoop h (uniContinue p h fuel) true (p msgs) msgs []
    ⟨r.outs, r.msgs, r.consults + 1⟩

/-- `processUserMessageStream` (part_003, lines 126-189), fuelled. -/
def uniProcessStream (p : List UMsg → List SChunk) (h : BufEntry → ToolResult)
    (fuel : Nat) (msgs0 : List UMsg) (text : LC) : UniResult :=
  let msgs := msgs0 ++ [UMsg.user text]
  let r := uniChunkLoop h (uniContinue p h fuel) false (p msgs) msgs []
  ⟨r.outs, r.msgs, r.consults + 1⟩

/-! ### Provider switching and public configuration -/

/-- The agent-side state touched by `switchProvider`
(src/unnamed/part_003, lines 25-50): the active provider reference (held
abstractly as an identifier) and the owned conversation history. -/
structure AgentState where
  provider : Nat
  messages : List UMsg
  tools : List LC
deriving DecidableEq, Repr

/-- `switchProvider` (part_003, lines 41-50): swap the provider reference
(and its event listeners, which carry no conversation state); `messages` is
not touched. -/
def switchProvider (st : AgentState) (newProvider : Nat) : AgentState :=
  { st with provider := newProvider }

/-- The message list passed to `provider.chatStream` when a user message is
submitted (`processUserMessageStream`, part_003 lines 126-140): the user
message is appended to the history and the full history is sent. -/
def submitRequestMessages (st : AgentState) (text : LC) : List UMsg :=
  st.messages ++ [UMsg.user text]

/-- A provider configuration (src/unnamed/part_002, `BaseProviderConfig`). -/
structure ProviderConfig where
  ptype : LC
  name : LC
  apiKey : Option LC
  baseURL : Option LC
  timeout : Option Nat
  maxRetries : Option Nat
deriving DecidableEq, Repr

/-- The shape returned by `getPublicConfig`: no apiKey field exists. -/
structure PublicConfig where
  ptype : LC
  name : LC
  baseURL : Option LC
  timeout : Option Nat
  maxRetries : Option Nat
  hasApiKey : Bool
deriving DecidableEq, Repr

/-- JS truthiness of the optional apiKey string (`!!apiKey`): false for an
absent key and for the empty string. -/
def apiKeyTruthy : Option LC → Bool
  | some (_ :: _) => true
  | _ => false

/-- `BaseLLMProvider.getPublicConfig` (base-provider, lines 290-296):
destructure `apiKey` out of the config, return the remaining fields plus
`hasApiKey: !!apiKey`. -/
def getPublicConfig (c : ProviderConfig) : PublicConfig :=
  ⟨c.ptype, c.name, c.baseURL, c.timeout, c.maxRetries, apiKeyTruthy c.apiKey⟩

/-! ### Concrete fixtures used by counterexamples and witnesses -/

/-- A provider stub that streams one more bash tool call on every consult. -/
def oneToolProvider : List LMsg → List LegacyDelta :=
  fun _ => [⟨[], some [⟨chars "1", chars "bash", ['{', '}']⟩]⟩]

/-- A provider stub streaming one turn with two tool calls. -/
def twoToolProvider : List LMsg → List LegacyDelta :=
  fun _ => [⟨[], some [⟨chars "1", chars "view_file", ['{', '}']⟩,
    ⟨chars "2", chars "bash", ['{', '}']⟩]⟩]

/-- A provider stub streaming two content deltas and no tool calls. -/
def contentProvider : List LMsg → List LegacyDelta :=
  fun _ => [⟨chars "Hel", none⟩, ⟨chars "lo", none⟩]

/-- Tool implementations that always succeed. -/
def okImpls : ToolImpls :=
  ⟨fun _ => .ok ⟨true, chars "viewed", []⟩, fun _ => .ok ⟨true, [], []⟩,
   fun _ => .ok ⟨true, [], []⟩, fun _ => .ok ⟨true, chars "ran", []⟩,
   fun _ => .ok ⟨true, [], []⟩, fun _ => .ok ⟨true, [], []⟩⟩

/-- Tool implementations whose bash handler throws. -/
def failBashImpls : ToolImpls :=
  { okImpls with bash := fun _ => .error (chars "boom") }

/-- The universal-path provider stub: one more tool call forever. -/
def uniToolProvider : List UMsg → List SChunk :=
  fun _ => [SChunk.toolCalls [⟨chars "1", chars "bash", ['{', '}']⟩]]

/-- A trivial universal tool executor. -/
def okToolHandler : BufEntry → ToolResult := fun _ => ⟨true, chars "ok", []⟩

/-! ### C4: the concrete reassembly scenario -/

/-- C4: on the delta stream
`[{content:"Hello"}, {toolCallFragment:{index:0, namePart:"bash",
argumentsPart:open-brace "comm"}}, {toolCallFragment:{index:0,
argumentsPart:"and":"ls" close-brace}}, {done}]` the reassembled turn has
content `"Hello"` and exactly one tool call, named `bash`, with raw
arguments the complete JSON command object. -/
theorem reassemble_scenario_hello_bash :
    collectTurn
      (runConvert
        [ ⟨chars "Hello", none, none⟩,
          ⟨[], some [⟨0, [], chars "bash", '{' :: chars "\"comm"⟩], none⟩,
          ⟨[], some [⟨0, [], [], chars "and\":\"ls\"" ++ ['}']⟩], none⟩,
          ⟨[], none, some (chars "stop")⟩ ] []).1
      = ⟨chars "Hello", [⟨[], chars "bash", '{' :: chars "\"command\":\"ls\"" ++ ['}']⟩]⟩ := by
  decide

/-! ### C5: per-index accumulation of fragments -/

/-- C5 (counterexample): the claim says the name part is set once from the
first fragment that carries it and never re-concatenated from later
fragments. In the code a later fragment carrying a name part is appended
(`toolCallBuffer[index].function.name += toolCallDelta.function.name`):
after fragments with name parts `"ba"` and `"sh"` at the same index, the
buffered name is `"bash"`, not `"ba"`. -/
theorem fragment_name_is_reconcatenated :
    List.foldl applyFragment []
        [⟨0, [], chars "ba", ['{']⟩, ⟨0, [], chars "sh", []⟩]
      = [(0, ⟨[], chars "bash", ['{']⟩)] ∧ chars "bash" ≠ chars "ba" := by
  decide

theorem bufFind_singleton (i : Nat) (e : BufEntry) : bufFind [(i, e)] i = some e := by
  simp [bufFind, List.find?]

theorem bufSet_singleton (i : Nat) (e e' : BufEntry) : bufSet [(i, e)] i e' = [(i, e')] := by
  simp [bufSet]

theorem applyFragment_existing (i : Nat) (e : BufEntry) (f : ToolFrag) (hf : f.index = i) :
    applyFragment [(i, e)] f
      = [(i, ⟨e.id, e.name ++ f.namePart, e.args ++ f.argsPart⟩)] := by
  unfold applyFragment
  rw [hf, bufFind_singleton]
  rcases f with ⟨fi, fid, fn, fa⟩
  rcases e with ⟨ei, en, ea⟩
  cases fn <;> cases fa <;> simp [List.isEmpty, bufSet]

theorem foldl_applyFragment_existing (i : Nat) (e : BufEntry) (fs : List ToolFrag)
    (hfs : ∀ g ∈ fs, g.index = i) :
    List.foldl applyFragment [(i, e)] fs
      = [(i, ⟨e.id, e.name ++ (fs.map ToolFrag.namePart).flatten,
              e.args ++ (fs.map ToolFrag.argsPart).flatten⟩)] := by
  induction fs generalizing e with
  | nil => simp
  | cons f fs ih =>
    have hf : f.index = i := hfs f (by simp)
    rw [List.foldl_cons, applyFragment_existing i e f hf,
      ih ⟨e.id, e.name ++ f.namePart, e.args ++ f.argsPart⟩ (fun g hg => hfs g (by simp [hg]))]
    simp

/-- C5 (amended): during per-index accumulation, the id part is taken from
the first fragment for the index (id parts on later fragments are ignored),
while both the name part and the arguments part are concatenated across all
fragments for the same index. -/
theorem fragment_accumulation_per_index (i : Nat) (f : ToolFrag) (fs : List ToolFrag)
    (hf : f.index = i) (hfs : ∀ g ∈ fs, g.index = i) :
    List.foldl applyFragment [] (f :: fs)
      = [(i, ⟨f.idPart, f.namePart ++ (fs.map ToolFrag.namePart).flatten,
              f.argsPart ++ (fs.map ToolFrag.argsPart).flatten⟩)] := by
  rw [List.foldl_cons]
  have h1 : applyFragment [] f = [(i, ⟨f.idPart, f.namePart, f.argsPart⟩)] := by
    unfold applyFragment
    rw [hf]
    rfl
  rw [h1, foldl_applyFragment_existing i _ fs hfs]

/-! ### Scanner facts -/

theorem scanList_nil (st : ScanState) : scanList [] st = st := rfl

theorem scanList_cons (c : Char) (l : LC) (st : ScanState) :
    scanList (c :: l) st = scanList l (scanStep st c) := rfl

theorem scanList_append (a b : LC) (st : ScanState) :
    scanList (a ++ b) st = scanList b (scanList a st) :=
  List.foldl_append scanStep st a b

theorem scanStep_plain (cnt : Int) (c : Char) (h : plainChar c = true) :
    scanStep ⟨cnt, false, false⟩ c = ⟨cnt, false, false⟩ := by
  simp only [plainChar, Bool.not_eq_true', decide_eq_true_eq, Bool.or_eq_false_iff,
    decide_eq_false_iff_not] at h
  simp [scanStep, h.1.1.1, h.1.1.2, h.1.2, h.2]

theorem scanStep_inString (cnt : Int) (c : Char) (h1 : c ≠ '\\') (h2 : c ≠ '"') :
    scanStep ⟨cnt, true, false⟩ c = ⟨cnt, true, false⟩ := by
  simp [scanStep, h1, h2]

theorem scanList_plain (l : LC) (h : ∀ c ∈ l, plainChar c = true) (cnt : Int) :
    scanList l ⟨cnt, false, false⟩ = ⟨cnt, false, false⟩ := by
  induction l with
  | nil => rfl
  | cons c l ih =>
    rw [scanList_cons, scanStep_plain cnt c (h c (by simp))]
    exact ih (fun x hx => h x (by simp [hx]))

theorem plainChar_false_cases (c : Char) (h : plainChar c = false) :
    c = '\\' ∨ c = '"' ∨ c = '{' ∨ c = '}' := by
  by_contra hc
  push_neg at hc
  have h2 : plainChar c = true := by
    simp [plainChar, hc.1, hc.2.1, hc.2.2.1, hc.2.2.2]
  rw [h] at h2
  exact Bool.false_ne_true h2

theorem plainChar_ws (c : Char) (h : isWsChar c = true) : plainChar c = true := by
  rcases Bool.eq_false_or_eq_true (plainChar c) with ht | hf
  · exact ht
  · exfalso
    rcases plainChar_false_cases c hf with rfl | rfl | rfl | rfl <;> revert h <;> decide

theorem plainChar_number (c : Char) (h : numberChar c = true) : plainChar c = true := by
  rcases Bool.eq_false_or_eq_true (plainChar c) with ht | hf
  · exact ht
  · exfalso
    rcases plainChar_false_cases c hf with rfl | rfl | rfl | rfl <;> revert h <;> decide

theorem plain_ws_run (l : LC) : ∀ c ∈ l.takeWhile isWsChar, plainChar c = true :=
  fun c hc => plainChar_ws c (List.mem_takeWhile_imp hc)

/-- Any neutral/plain run gives a `SegNeutral` segment. -/
theorem segNeutral_plain (X : LC) (h : ∀ c ∈ X, plainChar c = true) : SegNeutral X := by
  constructor
  · exact fun cnt => scanList_plain X h cnt
  · intro cnt p q hpq
    have hp : ∀ c ∈ p, plainChar c = true := fun c hc => h c (by rw [hpq]; exact List.mem_append_left q hc)
    rw [scanList_plain p hp cnt]

theorem segNeutral_nil : SegNeutral [] :=
  segNeutral_plain [] (by simp)

theorem segNeutral_append (X Y : LC) (hX : SegNeutral X) (hY : SegNeutral Y) :
    SegNeutral (X ++ Y) := by
  constructor
  · intro cnt
    rw [scanList_append, hX.1 cnt, hY.1 cnt]
  · intro cnt p q hpq
    rcases List.append_eq_append_iff.mp hpq.symm with ⟨s, hs1, hs2⟩ | ⟨s, hs1, hs2⟩
    · -- p a prefix of X
      exact hX.2 cnt p s hs1
    · -- p = X ++ s with s a prefix of Y
      subst hs1
      rw [scanList_append, hX.1 cnt]
      exact hY.2 cnt s q hs2

theorem segClosing_append (X Y : LC) (hX : SegNeutral X) (hY : SegClosing Y) :
    SegClosing (X ++ Y) := by
  constructor
  · intro cnt
    rw [scanList_append, hX.1 cnt, hY.1 cnt]
  · intro cnt p q hpq hq
    rcases List.append_eq_append_iff.mp hpq.symm with ⟨s, hs1, hs2⟩ | ⟨s, hs1, hs2⟩
    · exact hX.2 cnt p s hs1
    · subst hs1
      rw [scanList_append, hX.1 cnt]
      exact hY.2 cnt s q hs2 hq

theorem segClosing_rbrace : SegClosing ['}'] := by
  constructor
  · intro cnt
    simp [scanList, scanStep]
  · intro cnt p q hpq hq
    rcases p with _ | ⟨c, p⟩
    · exact le_rfl
    · exfalso
      rcases q with _ | ⟨d, q⟩
      · exact hq rfl
      · have hlen := congrArg List.length hpq
        simp only [List.length_cons, List.length_nil, List.length_append] at hlen
        omega

/-- A brace-opened closing segment is neutral: the text of a JSON object. -/
theorem segNeutral_object (X : LC) (hX : SegClosing X) : SegNeutral ('{' :: X) := by
  constructor
  · intro cnt
    rw [scanList_cons]
    have : scanStep ⟨cnt, false, false⟩ '{' = ⟨cnt + 1, false, false⟩ := by simp [scanStep]
    rw [this, hX.1 (cnt + 1)]
    congr 1
    omega
  · intro cnt p q hpq
    rcases p with _ | ⟨c, p⟩
    · exact le_rfl
    · have hc : c = '{' := by simpa using congrArg (fun l => l.head?) hpq.symm
      subst hc
      have hpq2 : X = p ++ q := by simpa using hpq
      rw [scanList_cons]
      have hstep1 : scanStep ⟨cnt, false, false⟩ '{' = ⟨cnt + 1, false, false⟩ := by simp [scanStep]
      rw [hstep1]
      rcases q with _ | ⟨d, q⟩
      · -- the whole object: the scan returns exactly to cnt
        have := hX.1 (cnt + 1)
        rw [List.append_nil] at hpq2
        rw [← hpq2, this]
        simp
      · have := hX.2 (cnt + 1) p (d :: q) hpq2 (by simp)
        omega

/-- `parseStringBody` consumes through the closing quote: the scan (entered
in-string, after the opening quote) leaves the string exactly at the end,
and no prefix of the consumed text changes the brace count. -/
theorem parseStringBody_spec (l : LC) :
    ∀ T r, parseStringBody l = some (T, r) →
      l = T ++ r ∧
      (∀ cnt : Int, scanList T ⟨cnt, true, false⟩ = ⟨cnt, false, false⟩) ∧
      (∀ (cnt : Int) (p q : LC), T = p ++ q →
        (scanList p ⟨cnt, true, false⟩).braceCount = cnt) := by
  induction l using parseStringBody.induct with
  | case1 =>
    intro T r h
    simp [parseStringBody] at h
  | case2 r0 =>
    intro T r h
    simp only [parseStringBody, Option.some.injEq, Prod.mk.injEq] at h
    obtain ⟨hT, hr⟩ := h
    subst hT hr
    refine ⟨rfl, ?_, ?_⟩
    · intro cnt
      simp [scanList, scanStep]
    · intro cnt p q hpq
      rcases p with _ | ⟨c, p⟩
      · rfl
      · rcases List.cons_eq_cons.mp hpq with ⟨hc, hrest⟩
        subst hc
        have hp : p = [] := by
          rcases List.append_eq_nil.mp hrest.symm with ⟨h1, _⟩
          exact h1
        subst hp
        simp [scanList, scanStep]
  | case3 c r0 ih =>
    intro T r h
    simp only [parseStringBody, Option.map_eq_some'] at h
    obtain ⟨⟨T1, r1⟩, hps, heq⟩ := h
    obtain ⟨hT, hr⟩ := Prod.mk.injEq .. ▸ heq
    subst hT
    subst hr
    obtain ⟨hsplit, hid, hpre⟩ := ih T1 r1 hps
    have hstep1 : ∀ cnt : Int, scanStep ⟨cnt, true, false⟩ '\\' = ⟨cnt, true, true⟩ := by
      intro cnt
      simp [scanStep]
    have hstep2 : ∀ cnt : Int, scanStep ⟨cnt, true, true⟩ c = ⟨cnt, true, false⟩ := by
      intro cnt
      simp [scanStep]
    refine ⟨by simp [hsplit], ?_, ?_⟩
    · intro cnt
      rw [scanList_cons, hstep1, scanList_cons, hstep2]
      exact hid cnt
    · intro cnt p q hpq
      rcases p with _ | ⟨c1, p⟩
      · rfl
      · rcases List.cons_eq_cons.mp hpq with ⟨hc1, hrest⟩
        subst hc1
        rcases p with _ | ⟨c2, p⟩
        · rw [scanList_cons, hstep1]
          rfl
        · rcases List.cons_eq_cons.mp hrest with ⟨hc2, hrest2⟩
          subst hc2
          rw [scanList_cons, hstep1, scanList_cons, hstep2]
          exact hpre cnt p q hrest2
  | case4 =>
    intro T r h
    simp [parseStringBody] at h
  | case5 c r0 hne1 hne2 hne3 ih =>
    intro T r h
    have hq : c ≠ '"' := fun hc => hne1 hc
    have hb : c ≠ '\\' := by
      intro hc
      rcases r0 with _ | ⟨c1, r1⟩
      · exact hne3 hc rfl
      · exact hne2 c1 r1 hc rfl
    have he : parseStringBody (c :: r0) = (parseStringBody r0).map (fun p => (c :: p.1, p.2)) := by
      rcases r0 with _ | ⟨c1, r1⟩
      · rw [parseStringBody.eq_def]
        simp [hq, hb]
      · rw [parseStringBody.eq_def]
        simp [hq, hb]
    rw [he] at h
    simp only [Option.map_eq_some'] at h
    obtain ⟨⟨T1, r1⟩, hps, heq⟩ := h
    obtain ⟨hT, hr⟩ := Prod.mk.injEq .. ▸ heq
    subst hT
    subst hr
    obtain ⟨hsplit, hid, hpre⟩ := ih T1 r1 hps
    have hstep : ∀ cnt : Int, scanStep ⟨cnt, true, false⟩ c = ⟨cnt, true, false⟩ :=
      fun cnt => scanStep_inString cnt c hb hq
    refine ⟨by simp [hsplit], ?_, ?_⟩
    · intro cnt
      rw [scanList_cons, hstep]
      exact hid cnt
    · intro cnt p q hpq
      rcases p with _ | ⟨c1, p⟩
      · rfl
      · rcases List.cons_eq_cons.mp hpq with ⟨hc1, hrest⟩
        subst hc1
        rw [scanList_cons, hstep]
        exact hpre cnt p q hrest

theorem parseKeyword_spec (kw l T r : LC) (h : parseKeyword kw l = some (T, r)) :
    T = kw ∧ l = T ++ r := by
  unfold parseKeyword at h
  split_ifs at h with htake
  simp only [Option.some.injEq, Prod.mk.injEq] at h
  obtain ⟨hT, hr⟩ := h
  subst hT
  subst hr
  refine ⟨rfl, ?_⟩
  conv_lhs => rw [← List.take_append_drop kw.length l]
  rw [htake]

/-- A complete string literal (opening quote plus consumed body) is a
neutral segment for the scanner. -/
theorem segNeutral_string (l T r : LC) (h : parseStringBody l = some (T, r)) :
    SegNeutral ('"' :: T) := by
  obtain ⟨_, hid, hpre⟩ := parseStringBody_spec l T r h
  have hstep : ∀ cnt : Int, scanStep ⟨cnt, false, false⟩ '"' = ⟨cnt, true, false⟩ := by
    intro cnt
    simp [scanStep]
  constructor
  · intro cnt
    rw [scanList_cons, hstep]
    exact hid cnt
  · intro cnt p q hpq
    rcases p with _ | ⟨c1, p⟩
    · exact le_rfl
    · rcases List.cons_eq_cons.mp hpq with ⟨hc1, hrest⟩
      subst hc1
      rw [scanList_cons, hstep]
      exact le_of_eq (hpre cnt p q hrest).symm

/-- The central parser/scanner correspondence: text consumed as a JSON value
is a neutral segment for the brace scanner, and text consumed as the tail of
an object (member list plus closing brace) closes exactly one brace, at its
final character, with every proper prefix keeping the count at or above the
entry count. -/
theorem parse_scan_spec (fuel : Nat) :
    (∀ l T r, parseValue fuel l = some (T, r) → l = T ++ r ∧ SegNeutral T) ∧
    (∀ l T r, parseObjectRest fuel l = some (T, r) →
      l = T ++ r ∧ SegClosing T ∧ ∃ T0, T = T0 ++ ['}']) ∧
    (∀ l T r, parseMembers fuel l = some (T, r) →
      l = T ++ r ∧ SegClosing T ∧ ∃ T0, T = T0 ++ ['}']) ∧
    (∀ l T r, parseArrayRest fuel l = some (T, r) → l = T ++ r ∧ SegNeutral T) ∧
    (∀ l T r, parseElems fuel l = some (T, r) → l = T ++ r ∧ SegNeutral T) := by
  induction fuel with
  | zero =>
    refine ⟨?_, ?_, ?_, ?_, ?_⟩ <;> intro l T r h <;>
      simp [parseValue, parseObjectRest, parseMembers, parseArrayRest, parseElems] at h
  | succ n ih =>
    obtain ⟨ihV, ihO, ihM, ihA, ihE⟩ := ih
    refine ⟨?_, ?_, ?_, ?_, ?_⟩
    -- parseValue
    · intro l T r h
      rcases l with _ | ⟨c, r0⟩
      · simp [parseValue] at h
      · simp only [parseValue] at h
        split_ifs at h with h1 h2 h3 h4 h5 h6 h7
        · -- object
          subst h1
          rw [Option.map_eq_some'] at h
          obtain ⟨⟨To, ro⟩, hpo, heq⟩ := h
          simp only [Prod.mk.injEq] at heq
          obtain ⟨hT, hr⟩ := heq
          subst hT
          subst hr
          obtain ⟨hsplit, hclose, _⟩ := ihO r0 To ro hpo
          exact ⟨by simp [hsplit], segNeutral_object To hclose⟩
        · -- array
          subst h2
          rw [Option.map_eq_some'] at h
          obtain ⟨⟨Ta, ra⟩, hpa, heq⟩ := h
          simp only [Prod.mk.injEq] at heq
          obtain ⟨hT, hr⟩ := heq
          subst hT
          subst hr
          obtain ⟨hsplit, hneut⟩ := ihA r0 Ta ra hpa
          refine ⟨by simp [hsplit], ?_⟩
          have hbr : SegNeutral ['['] := segNeutral_plain ['['] (by decide)
          simpa using segNeutral_append ['['] Ta hbr hneut
        · -- string
          subst h3
          rw [Option.map_eq_some'] at h
          obtain ⟨⟨Ts, rs⟩, hps, heq⟩ := h
          simp only [Prod.mk.injEq] at heq
          obtain ⟨hT, hr⟩ := heq
          subst hT
          subst hr
          obtain ⟨hsplit, _, _⟩ := parseStringBody_spec r0 Ts rs hps
          exact ⟨by simp [hsplit], segNeutral_string r0 Ts rs hps⟩
        · -- true
          subst h4
          rw [Option.map_eq_some'] at h
          obtain ⟨⟨Tk, rk⟩, hpk, heq⟩ := h
          simp only [Prod.mk.injEq] at heq
          obtain ⟨hT, hr⟩ := heq
          subst hT
          subst hr
          obtain ⟨hkw, hsplit⟩ := parseKeyword_spec _ r0 Tk rk hpk
          subst hkw
          exact ⟨by simp [hsplit], segNeutral_plain _ (by decide)⟩
        · -- false
          subst h5
          rw [Option.map_eq_some'] at h
          obtain ⟨⟨Tk, rk⟩, hpk, heq⟩ := h
          simp only [Prod.mk.injEq] at heq
          obtain ⟨hT, hr⟩ := heq
          subst hT
          subst hr
          obtain ⟨hkw, hsplit⟩ := parseKeyword_spec _ r0 Tk rk hpk
          subst hkw
          exact ⟨by simp [hsplit], segNeutral_plain _ (by decide)⟩
        · -- null
          subst h6
          rw [Option.map_eq_some'] at h
          obtain ⟨⟨Tk, rk⟩, hpk, heq⟩ := h
          simp only [Prod.mk.injEq] at heq
          obtain ⟨hT, hr⟩ := heq
          subst hT
          subst hr
          obtain ⟨hkw, hsplit⟩ := parseKeyword_spec _ r0 Tk rk hpk
          subst hkw
          exact ⟨by simp [hsplit], segNeutral_plain _ (by decide)⟩
        · -- number
          simp only [Option.some.injEq, Prod.mk.injEq] at h
          obtain ⟨hT, hr⟩ := h
          subst hT
          subst hr
          refine ⟨?_, ?_⟩
          · have := List.takeWhile_append_dropWhile numberChar r0
            simp [this]
          · refine segNeutral_plain _ ?_
            intro x hx
            rcases List.mem_cons.mp hx with rfl | hx2
            · exact plainChar_number x h7
            · exact plainChar_number x (List.mem_takeWhile_imp hx2)
    -- parseObjectRest
    · intro l T r h
      simp only [parseObjectRest] at h
      split at h
      · rename_i r2 heq
        simp only [Option.some.injEq, Prod.mk.injEq] at h
        obtain ⟨hT, hr⟩ := h
        subst hT
        subst hr
        have hw : SegNeutral (l.takeWhile isWsChar) := segNeutral_plain _ (plain_ws_run l)
        refine ⟨?_, segClosing_append _ _ hw segClosing_rbrace, ⟨l.takeWhile isWsChar, rfl⟩⟩
        conv_lhs => rw [← List.takeWhile_append_dropWhile isWsChar l]
        rw [heq]
        simp
      · rename_i hne
        rw [Option.map_eq_some'] at h
        obtain ⟨⟨Tm, rm⟩, hpm, heq⟩ := h
        simp only [Prod.mk.injEq] at heq
        obtain ⟨hT, hr⟩ := heq
        subst hT
        subst hr
        obtain ⟨hsplit, hclose, T0, hT0⟩ := ihM _ Tm rm hpm
        have hw : SegNeutral (l.takeWhile isWsChar) := segNeutral_plain _ (plain_ws_run l)
        refine ⟨?_, segClosing_append _ _ hw hclose, ⟨l.takeWhile isWsChar ++ T0, by simp [hT0]⟩⟩
        conv_lhs => rw [← List.takeWhile_append_dropWhile isWsChar l]
        rw [hsplit]
        simp
    -- parseMembers
    · intro l T r h
      simp only [parseMembers] at h
      split at h
      · rename_i r0
        split at h
        · exact absurd h (by simp)
        · rename_i ks r1 heqs
          split at h
          · rename_i r2 heq1
            split at h
            · exact absurd h (by simp)
            · rename_i vs r3 heqv
              obtain ⟨hsplitv, hneutv⟩ := ihV _ vs r3 heqv
              obtain ⟨hsplits, _, _⟩ := parseStringBody_spec r0 ks r1 heqs
              have hN1 : SegNeutral ('"' :: ks) := segNeutral_string r0 ks r1 heqs
              have hN2 : SegNeutral (r1.takeWhile isWsChar) :=
                segNeutral_plain _ (plain_ws_run r1)
              have hN3 : SegNeutral [':'] := segNeutral_plain _ (by decide)
              have hN4 : SegNeutral (r2.takeWhile isWsChar) :=
                segNeutral_plain _ (plain_ws_run r2)
              have hN6 : SegNeutral (r3.takeWhile isWsChar) :=
                segNeutral_plain _ (plain_ws_run r3)
              split at h
              · -- comma: another member follows
                rename_i r4 heq2
                rw [Option.map_eq_some'] at h
                obtain ⟨⟨Tm2, rm2⟩, hpm2, heq3⟩ := h
                simp only [Prod.mk.injEq] at heq3
                obtain ⟨hT, hr⟩ := heq3
                subst hT
                subst hr
                obtain ⟨hsplitm, hclosem, T0, hT0⟩ := ihM _ Tm2 rm2 hpm2
                have hN7 : SegNeutral [','] := segNeutral_plain _ (by decide)
                have hN8 : SegNeutral (r4.takeWhile isWsChar) :=
                  segNeutral_plain _ (plain_ws_run r4)
                refine ⟨?_, ?_, ?_⟩
                · conv_lhs => rw [hsplits]
                  conv_lhs => rw [← List.takeWhile_append_dropWhile isWsChar r1, heq1]
                  conv_lhs => rw [← List.takeWhile_append_dropWhile isWsChar r2, hsplitv]
                  conv_lhs => rw [← List.takeWhile_append_dropWhile isWsChar r3, heq2]
                  conv_lhs => rw [← List.takeWhile_append_dropWhile isWsChar r4, hsplitm]
                  simp
                · have hassemble :
                      SegClosing (('"' :: ks) ++ ((r1.takeWhile isWsChar) ++ ([':'] ++
                        ((r2.takeWhile isWsChar) ++ (vs ++ ((r3.takeWhile isWsChar) ++
                          ([','] ++ ((r4.takeWhile isWsChar) ++ Tm2)))))))) :=
                    segClosing_append _ _ hN1 (segClosing_append _ _ hN2
                      (segClosing_append _ _ hN3 (segClosing_append _ _ hN4
                        (segClosing_append _ _ hneutv (segClosing_append _ _ hN6
                          (segClosing_append _ _ hN7 (segClosing_append _ _ hN8 hclosem)))))))
                  simpa using hassemble
                · refine ⟨'"' :: ks ++ r1.takeWhile isWsChar ++ ':' :: r2.takeWhile isWsChar ++
                    vs ++ r3.takeWhile isWsChar ++ ',' :: r4.takeWhile isWsChar ++ T0, ?_⟩
                  simp [hT0]
              · -- closing brace: last member
                rename_i r4 heq2
                simp only [Option.some.injEq, Prod.mk.injEq] at h
                obtain ⟨hT, hr⟩ := h
                subst hT
                subst hr
                refine ⟨?_, ?_, ?_⟩
                · conv_lhs => rw [hsplits]
                  conv_lhs => rw [← List.takeWhile_append_dropWhile isWsChar r1, heq1]
                  conv_lhs => rw [← List.takeWhile_append_dropWhile isWsChar r2, hsplitv]
                  conv_lhs => rw [← List.takeWhile_append_dropWhile isWsChar r3, heq2]
                  simp
                · have hassemble :
                      SegClosing (('"' :: ks) ++ ((r1.takeWhile isWsChar) ++ ([':'] ++
                        ((r2.takeWhile isWsChar) ++ (vs ++ ((r3.takeWhile isWsChar) ++
                          ['}'])))))) :=
                    segClosing_append _ _ hN1 (segClosing_append _ _ hN2
                      (segClosing_append _ _ hN3 (segClosing_append _ _ hN4
                        (segClosing_append _ _ hneutv (segClosing_append _ _ hN6
                          segClosing_rbrace)))))
                  simpa using hassemble
                · refine ⟨'"' :: ks ++ r1.takeWhile isWsChar ++ ':' :: r2.takeWhile isWsChar ++
                    vs ++ r3.takeWhile isWsChar, ?_⟩
                  simp
              · exact absurd h (by simp)
          · exact absurd h (by simp)
      · exact absurd h (by simp)
    -- parseArrayRest
    · intro l T r h
      simp only [parseArrayRest] at h
      split at h
      · rename_i r2 heq
        simp only [Option.some.injEq, Prod.mk.injEq] at h
        obtain ⟨hT, hr⟩ := h
        subst hT
        subst hr
        have hw : SegNeutral (l.takeWhile isWsChar) := segNeutral_plain _ (plain_ws_run l)
        have hbr : SegNeutral [']'] := segNeutral_plain _ (by decide)
        refine ⟨?_, segNeutral_append _ _ hw hbr⟩
        conv_lhs => rw [← List.takeWhile_append_dropWhile isWsChar l]
        rw [heq]
        simp
      · rename_i hne
        rw [Option.map_eq_some'] at h
        obtain ⟨⟨Te, re⟩, hpe, heq⟩ := h
        simp only [Prod.mk.injEq] at heq
        obtain ⟨hT, hr⟩ := heq
        subst hT
        subst hr
        obtain ⟨hsplit, hneut⟩ := ihE _ Te re hpe
        have hw : SegNeutral (l.takeWhile isWsChar) := segNeutral_plain _ (plain_ws_run l)
        refine ⟨?_, segNeutral_append _ _ hw hneut⟩
        conv_lhs => rw [← List.takeWhile_append_dropWhile isWsChar l]
        rw [hsplit]
        simp
    -- parseElems
    · intro l T r h
      simp only [parseElems] at h
      split at h
      · exact absurd h (by simp)
      · rename_i vs r1 heqv
        obtain ⟨hsplitv, hneutv⟩ := ihV _ vs r1 heqv
        have hN2 : SegNeutral (r1.takeWhile isWsChar) := segNeutral_plain _ (plain_ws_run r1)
        split at h
        · -- comma: more elements
          rename_i r2 heq1
          rw [Option.map_eq_some'] at h
          obtain ⟨⟨Te, re⟩, hpe, heq⟩ := h
          simp only [Prod.mk.injEq] at heq
          obtain ⟨hT, hr⟩ := heq
          subst hT
          subst hr
          obtain ⟨hsplite, hneute⟩ := ihE _ Te re hpe
          have hN3 : SegNeutral [','] := segNeutral_plain _ (by decide)
          have hN4 : SegNeutral (r2.takeWhile isWsChar) := segNeutral_plain _ (plain_ws_run r2)
          refine ⟨?_, ?_⟩
          · conv_lhs => rw [hsplitv]
            conv_lhs => rw [← List.takeWhile_append_dropWhile isWsChar r1, heq1]
            conv_lhs => rw [← List.takeWhile_append_dropWhile isWsChar r2, hsplite]
            simp
          · have hassemble :
                SegNeutral (vs ++ ((r1.takeWhile isWsChar) ++ ([','] ++
                  ((r2.takeWhile isWsChar) ++ Te)))) :=
              segNeutral_append _ _ hneutv (segNeutral_append _ _ hN2
                (segNeutral_append _ _ hN3 (segNeutral_append _ _ hN4 hneute)))
            simpa using hassemble
        · -- closing bracket
          rename_i r2 heq1
          simp only [Option.some.injEq, Prod.mk.injEq] at h
          obtain ⟨hT, hr⟩ := h
          subst hT
          subst hr
          have hN3 : SegNeutral [']'] := segNeutral_plain _ (by decide)
          refine ⟨?_, ?_⟩
          · conv_lhs => rw [hsplitv]
            conv_lhs => rw [← List.takeWhile_append_dropWhile isWsChar r1, heq1]
            simp
          · have hassemble :
                SegNeutral (vs ++ ((r1.takeWhile isWsChar) ++ [']'])) :=
              segNeutral_append _ _ hneutv (segNeutral_append _ _ hN2 hN3)
            simpa using hassemble
        · exact absurd h (by simp)

theorem dropWhile_ws_append (w l : LC) (hw : ∀ x ∈ w, isWsChar x = true) :
    (w ++ l).dropWhile isWsChar = l.dropWhile isWsChar := by
  induction w with
  | nil => rfl
  | cons c w ih =>
    rw [List.cons_append, List.dropWhile_cons]
    rw [hw c (by simp)]
    simp only [if_true]
    exact ih (fun x hx => hw x (by simp [hx]))

theorem dropWhile_eq_self_of_head (l : LC) (c : Char) (h : l.head? = some c)
    (hc : isWsChar c = false) : l.dropWhile isWsChar = l := by
  rcases l with _ | ⟨a, l⟩
  · simp at h
  · simp only [List.head?_cons, Option.some.injEq] at h
    subst h
    rw [List.dropWhile_cons, hc]
    simp

/-- `trimRight` splits off a whitespace suffix. -/
theorem trimRight_split (l : LC) :
    ∃ w, l = trimRight l ++ w ∧ ∀ x ∈ w, isWsChar x = true := by
  refine ⟨(l.reverse.takeWhile isWsChar).reverse, ?_, ?_⟩
  · unfold trimRight
    have h := List.takeWhile_append_dropWhile isWsChar l.reverse
    have h2 := congrArg List.reverse h
    rw [List.reverse_append] at h2
    simpa using h2.symm
  · intro x hx
    rw [List.mem_reverse] at hx
    exact List.mem_takeWhile_imp hx

/-- Under no-trailing-whitespace, a whitespace suffix must be empty. -/
theorem no_ws_suffix (S X ro : LC) (hhead : S.head? = some '{')
    (htrim : trimChars S = S) (hS : S = X ++ ro)
    (hws : ∀ x ∈ ro, isWsChar x = true) : ro = [] := by
  have hdrop : S.dropWhile isWsChar = S :=
    dropWhile_eq_self_of_head S '{' hhead (by decide)
  have htr : trimRight S = S := by
    unfold trimChars at htrim
    rw [hdrop] at htrim
    exact htrim
  rcases ro with _ | ⟨c, ro'⟩
  · rfl
  · exfalso
    have hwsrev : ∀ x ∈ (c :: ro').reverse, isWsChar x = true := by
      intro x hx
      exact hws x (List.mem_reverse.mp hx)
    have hrev : S.reverse = (c :: ro').reverse ++ X.reverse := by
      rw [hS, List.reverse_append]
    have hlen : (trimRight S).length ≤ X.length := by
      unfold trimRight
      rw [hrev, dropWhile_ws_append _ _ hwsrev]
      calc (X.reverse.dropWhile isWsChar).reverse.length
          = (X.reverse.dropWhile isWsChar).length := by rw [List.length_reverse]
        _ ≤ X.reverse.length := (List.dropWhile_sublist isWsChar).length_le
        _ = X.length := List.length_reverse X
    rw [htr, hS] at hlen
    simp at hlen

theorem parseValue_obj (fuel : Nat) (r : LC) :
    parseValue (fuel + 1) ('{' :: r) =
      (parseObjectRest fuel r).map (fun p => ('{' :: p.1, p.2)) := by
  simp [parseValue]

/-- A string accepted by `JSON.parse`, starting with a brace and carrying no
surrounding whitespace, is exactly an object text: an opening brace followed
by a closing segment ending in the matching brace. -/
theorem valid_object_structure (S : LC) (hjson : jsonParseOk S = true)
    (hhead : S.head? = some '{') (htrim : trimChars S = S) :
    ∃ B, S = '{' :: B ∧ SegClosing B ∧ (∃ B0, B = B0 ++ ['}']) ∧ SegNeutral S := by
  have hdrop : S.dropWhile isWsChar = S :=
    dropWhile_eq_self_of_head S '{' hhead (by decide)
  unfold jsonParseOk at hjson
  rw [hdrop] at hjson
  rcases hpv : parseValue (2 * S.length + 4) S with _ | ⟨T, r⟩
  · rw [hpv] at hjson
    simp at hjson
  · rw [hpv] at hjson
    simp only [List.isEmpty_iff] at hjson
    have hwsr : ∀ x ∈ r, isWsChar x = true := by
      intro x hx
      by_contra hxw
      have : r.dropWhile isWsChar ≠ [] := by
        intro hnil
        have hmem : x ∈ r.takeWhile isWsChar ++ r.dropWhile isWsChar := by
          rw [List.takeWhile_append_dropWhile]
          exact hx
        rw [hnil, List.append_nil] at hmem
        exact hxw (List.mem_takeWhile_imp hmem)
      exact this hjson
    obtain ⟨hsplit, hneutT⟩ := (parse_scan_spec (2 * S.length + 4)).1 S T r hpv
    have hrnil : r = [] := no_ws_suffix S T r hhead htrim hsplit hwsr
    subst hrnil
    rw [List.append_nil] at hsplit
    subst hsplit
    -- now parse the leading brace structurally
    rcases S with _ | ⟨c, B0⟩
    · simp at hhead
    · simp only [List.head?_cons, Option.some.injEq] at hhead
      subst hhead
      have hfuel : 2 * ('{' :: B0).length + 4 = (2 * ('{' :: B0).length + 3) + 1 := by omega
      rw [hfuel, parseValue_obj] at hpv
      rw [Option.map_eq_some'] at hpv
      obtain ⟨⟨To, ro⟩, hpo, heq⟩ := hpv
      simp only [Prod.mk.injEq, List.cons.injEq, true_and] at heq
      obtain ⟨hTo, hro⟩ := heq
      subst hro
      obtain ⟨hsplit2, hclose, hend⟩ :=
        (parse_scan_spec (2 * ('{' :: B0).length + 3)).2.1 B0 To [] hpo
      exact ⟨B0, rfl, hTo ▸ hclose, hTo ▸ hend, hneutT⟩

/-- The completeness check of the stream filter accepts a full valid JSON
object argument string (without surrounding whitespace). -/
theorem isCompleteJsonArgs_of_valid (S : LC) (hjson : jsonParseOk S = true)
    (hhead : S.head? = some '{') (htrim : trimChars S = S) :
    isCompleteJsonArgs S = true := by
  obtain ⟨B, hSB, _, ⟨B0, hB0⟩, hneut⟩ := valid_object_structure S hjson hhead htrim
  have hlast : S.getLast? = some '}' := by
    rw [hSB, hB0, show '{' :: (B0 ++ ['}']) = ('{' :: B0) ++ ['}'] from by simp]
    exact List.getLast?_concat _
  have h3 : scanList S scanInit = scanInit := hneut.1 0
  unfold isCompleteJsonArgs
  rw [htrim]
  simp only [hlast, h3, hjson]
  rw [hSB]
  rfl

/-- The completeness check of the stream filter rejects every proper nonempty
prefix of a valid JSON object argument string: the brace scan of the trimmed
prefix never returns to zero. -/
theorem isCompleteJsonArgs_prefix_false (S p q : LC) (hjson : jsonParseOk S = true)
    (hhead : S.head? = some '{') (htrim : trimChars S = S)
    (hp : p ≠ []) (hq : q ≠ []) (hS : S = p ++ q) :
    isCompleteJsonArgs p = false := by
  obtain ⟨B, hSB, hclose, _, _⟩ := valid_object_structure S hjson hhead htrim
  rcases p with _ | ⟨c, p'⟩
  · exact absurd rfl hp
  · have hcons : '{' :: B = c :: (p' ++ q) := by
      rw [← hSB, hS]
      simp
    obtain ⟨hc, hB⟩ := List.cons_eq_cons.mp hcons
    subst hc
    have hdropp : ('{' :: p').dropWhile isWsChar = '{' :: p' :=
      dropWhile_eq_self_of_head _ '{' rfl (by decide)
    obtain ⟨w, hw1, hw2⟩ := trimRight_split ('{' :: p')
    rcases htr : trimRight ('{' :: p') with _ | ⟨c2, t'⟩
    · exfalso
      rw [htr, List.nil_append] at hw1
      have : isWsChar '{' = true := hw2 '{' (by rw [← hw1]; simp)
      exact absurd this (by decide)
    · rw [htr] at hw1
      obtain ⟨hc2, hp'⟩ := List.cons_eq_cons.mp hw1
      subst hc2
      -- the trimmed prefix continues into the object body, never closing it
      have hq2 : w ++ q ≠ [] := by
        intro hn
        rcases List.append_eq_nil.mp hn with ⟨_, hqnil⟩
        exact hq hqnil
      have hbody : B = t' ++ (w ++ q) := by
        rw [hB, hp']
        simp
      have hbound := hclose.2 1 t' (w ++ q) hbody hq2
      have hscan : (scanList ('{' :: t') scanInit).braceCount =
          (scanList t' ⟨1, false, false⟩).braceCount := by
        rw [scanList_cons]
        have : scanStep scanInit '{' = ⟨1, false, false⟩ := by
          simp [scanStep, scanInit]
        rw [this]
      have hCfalse : decide ((scanList ('{' :: t') scanInit).braceCount = 0) = false := by
        rw [hscan]
        exact decide_eq_false (by omega)
      unfold isCompleteJsonArgs
      have htc : trimChars ('{' :: p') = '{' :: t' := by
        unfold trimChars
        rw [hdropp, htr]
      rw [htc]
      simp [hCfalse]

theorem isEmpty_false_of_ne_nil (l : LC) (h : l ≠ []) : l.isEmpty = false := by
  rcases l with _ | ⟨a, l⟩
  · exact absurd rfl h
  · rfl

theorem convert_frag_delta (f : ToolFrag) (buf : Buffer) :
    convertOpenAIStreamChunk (fragDelta f) buf =
      (let buf1 := applyFragment buf f
       let completed := (buf1.filter (fun e => isCompleteEntry e.2)).map Prod.snd
       if !completed.isEmpty then
         (some (.toolCalls completed), buf1.filter (fun e => !isCompleteEntry e.2))
       else (none, buf1)) := rfl

/-- Feeding one argument fragment into a singleton buffer at the same index:
emitted and removed when the accumulated arguments validate, kept pending
otherwise. -/
theorem convert_frag_on_entry (idp name acc f : LC) :
    convertOpenAIStreamChunk (fragDelta ⟨0, [], [], f⟩) [(0, ⟨idp, name, acc⟩)] =
      (if isCompleteEntry ⟨idp, name, acc ++ f⟩ then
        (some (.toolCalls [⟨idp, name, acc ++ f⟩]), [])
       else (none, [(0, ⟨idp, name, acc ++ f⟩)])) := by
  rw [convert_frag_delta]
  have happly : applyFragment [(0, (⟨idp, name, acc⟩ : BufEntry))] ⟨0, [], [], f⟩ =
      [(0, ⟨idp, name, acc ++ f⟩)] := by
    rw [applyFragment_existing 0 _ _ rfl]
    simp
  simp only [happly]
  cases hce : isCompleteEntry ⟨idp, name, acc ++ f⟩ with
  | false => simp [List.filter, hce]
  | true => simp [List.filter, hce]

/-- Feeding the first fragment (carrying id and name) into an empty buffer. -/
theorem convert_frag_on_empty (idp name f : LC) :
    convertOpenAIStreamChunk (fragDelta ⟨0, idp, name, f⟩) [] =
      (if isCompleteEntry ⟨idp, name, f⟩ then
        (some (.toolCalls [⟨idp, name, f⟩]), [])
       else (none, [(0, ⟨idp, name, f⟩)])) := by
  rw [convert_frag_delta]
  have happly : applyFragment [] (⟨0, idp, name, f⟩ : ToolFrag) =
      [(0, ⟨idp, name, f⟩)] := rfl
  simp only [happly]
  cases hce : isCompleteEntry ⟨idp, name, f⟩ with
  | false => simp [List.filter, hce]
  | true => simp [List.filter, hce]

theorem flatten_ne_nil_of_head (g : LC) (rest : List LC) (hg : g ≠ []) :
    (g :: rest).flatten ≠ [] := by
  intro h
  rw [List.flatten_cons] at h
  exact hg (List.append_eq_nil.mp h).1

theorem runConvert_cons_none (d : OADelta) (ds : List OADelta) (buf buf2 : Buffer)
    (h : convertOpenAIStreamChunk d buf = (none, buf2)) :
    runConvert (d :: ds) buf = runConvert ds buf2 := by
  simp [runConvert, h]

theorem runConvert_cons_some (d : OADelta) (ds : List OADelta) (buf buf2 : Buffer) (c : SChunk)
    (h : convertOpenAIStreamChunk d buf = (some c, buf2)) :
    runConvert (d :: ds) buf =
      (c :: (runConvert ds buf2).1, (runConvert ds buf2).2) := by
  simp [runConvert, h]

/-- Trailing fragments against a pending buffered call: nothing is emitted
until the final fragment completes the arguments, at which point the call is
emitted once, carrying the full argument string, and removed. -/
theorem runFrags_aux (idp name S : LC) (hname : name ≠ [])
    (hjson : jsonParseOk S = true) (hhead : S.head? = some '{')
    (htrim : trimChars S = S) :
    ∀ (rest : List LC) (acc : LC), rest ≠ [] → acc ≠ [] → (∀ f ∈ rest, f ≠ []) →
      acc ++ rest.flatten = S →
      runConvert (rest.map (fun a => fragDelta ⟨0, [], [], a⟩)) [(0, ⟨idp, name, acc⟩)] =
        ([SChunk.toolCalls [⟨idp, name, S⟩]], []) := by
  intro rest
  induction rest with
  | nil =>
    intro acc hr
    exact absurd rfl hr
  | cons f rest ih =>
    intro acc _ hacc hfs hcat
    have hf : f ≠ [] := hfs f (by simp)
    rcases rest with _ | ⟨g, rest'⟩
    · -- final fragment
      have hS : acc ++ f = S := by simpa using hcat
      have hSne : S ≠ [] := by
        intro hn
        rw [hn] at hhead
        simp at hhead
      have hcomplete : isCompleteEntry ⟨idp, name, acc ++ f⟩ = true := by
        unfold isCompleteEntry
        rw [hS, isEmpty_false_of_ne_nil name hname, isEmpty_false_of_ne_nil S hSne,
          isCompleteJsonArgs_of_valid S hjson hhead htrim]
        rfl
      have hstep : convertOpenAIStreamChunk (fragDelta ⟨0, [], [], f⟩)
          [(0, ⟨idp, name, acc⟩)] =
          (some (SChunk.toolCalls [⟨idp, name, S⟩]), []) := by
        rw [convert_frag_on_entry, hcomplete]
        rw [hS]
        simp
      rw [List.map_cons, List.map_nil, runConvert_cons_some _ _ _ _ _ hstep]
      simp [runConvert]
    · -- an intermediate fragment: the accumulated prefix does not validate
      have hpref : isCompleteJsonArgs (acc ++ f) = false := by
        refine isCompleteJsonArgs_prefix_false S (acc ++ f) ((g :: rest').flatten)
          hjson hhead htrim ?_ ?_ ?_
        · intro hn
          exact hf (List.append_eq_nil.mp hn).2
        · exact flatten_ne_nil_of_head g rest' (hfs g (by simp))
        · rw [← hcat]
          simp
      have hincomplete : isCompleteEntry ⟨idp, name, acc ++ f⟩ = false := by
        unfold isCompleteEntry
        rw [hpref]
        simp
      have hstep : convertOpenAIStreamChunk (fragDelta ⟨0, [], [], f⟩)
          [(0, ⟨idp, name, acc⟩)] =
          (none, [(0, ⟨idp, name, acc ++ f⟩)]) := by
        rw [convert_frag_on_entry, hincomplete]
        simp
      rw [List.map_cons, runConvert_cons_none _ _ _ _ hstep]
      exact ih (acc ++ f) (by simp) (by
          intro hn
          exact hf (List.append_eq_nil.mp hn).2)
        (fun x hx => hfs x (by simp [hx]))
        (by rw [← hcat]; simp)

theorem argFragDeltas_cons (idp name f : LC) (rest : List LC) :
    argFragDeltas idp name (f :: rest) =
      fragDelta ⟨0, idp, name, f⟩ :: rest.map (fun a => fragDelta ⟨0, [], [], a⟩) := rfl

/-- C2 (amended): for every tool-call argument string that is a valid JSON
object text with no surrounding whitespace, and every way of splitting it
into an ordered sequence of nonempty fragments for the same index (name
arriving on the first fragment), the reassembler emits the tool call exactly
once — the single produced chunk — with `rawArguments` equal to the
concatenation of the fragments, and the call is removed from the pending
buffer upon emission; the choice of splitting points does not affect the
final output. -/
theorem reassembler_emits_exactly_once (idp name S : LC) (frags : List LC)
    (hname : name ≠ []) (hne : frags ≠ []) (hfs : ∀ f ∈ frags, f ≠ [])
    (hconcat : frags.flatten = S)
    (hjson : jsonParseOk S = true) (hhead : S.head? = some '{')
    (htrim : trimChars S = S) :
    runConvert (argFragDeltas idp name frags) [] =
      ([SChunk.toolCalls [⟨idp, name, S⟩]], []) := by
  rcases frags with _ | ⟨f, rest⟩
  · exact absurd rfl hne
  · have hf : f ≠ [] := hfs f (by simp)
    rw [argFragDeltas_cons]
    rcases rest with _ | ⟨g, rest'⟩
    · -- a single fragment: the whole argument string at once
      have hS : f = S := by simpa using hconcat
      subst hS
      have hcomplete : isCompleteEntry ⟨idp, name, f⟩ = true := by
        unfold isCompleteEntry
        rw [isEmpty_false_of_ne_nil name hname, isEmpty_false_of_ne_nil f hf,
          isCompleteJsonArgs_of_valid f hjson hhead htrim]
        rfl
      have hstep : convertOpenAIStreamChunk (fragDelta ⟨0, idp, name, f⟩) [] =
          (some (SChunk.toolCalls [⟨idp, name, f⟩]), []) := by
        rw [convert_frag_on_empty, hcomplete]
        simp
      rw [List.map_nil, runConvert_cons_some _ _ _ _ _ hstep]
      simp [runConvert]
    · -- the first fragment is a proper prefix and stays pending
      have hpref : isCompleteJsonArgs f = false := by
        refine isCompleteJsonArgs_prefix_false S f ((g :: rest').flatten)
          hjson hhead htrim hf ?_ ?_
        · exact flatten_ne_nil_of_head g rest' (hfs g (by simp))
        · rw [← hconcat]
          simp
      have hincomplete : isCompleteEntry ⟨idp, name, f⟩ = false := by
        unfold isCompleteEntry
        rw [hpref]
        simp
      have hstep : convertOpenAIStreamChunk (fragDelta ⟨0, idp, name, f⟩) [] =
          (none, [(0, ⟨idp, name, f⟩)]) := by
        rw [convert_frag_on_empty, hincomplete]
        simp
      rw [runConvert_cons_none _ _ _ _ hstep]
      exact runFrags_aux idp name S hname hjson hhead htrim (g :: rest') f (by simp) hf
        (fun x hx => hfs x (by simp [hx]))
        (by rw [← hconcat]; simp)

/-- Witness for `reassembler_emits_exactly_once`: the spec scenario split of
the bash command object. -/
theorem reassembler_emits_exactly_once_witness :
    runConvert (argFragDeltas [] (chars "bash")
        ['{' :: chars "\"comm", chars "and\":\"ls\"" ++ ['}']]) [] =
      ([SChunk.toolCalls
        [⟨[], chars "bash", '{' :: chars "\"command\":\"ls\"" ++ ['}']⟩]], []) :=
  reassembler_emits_exactly_once [] (chars "bash")
    ('{' :: chars "\"command\":\"ls\"" ++ ['}'])
    ['{' :: chars "\"comm", chars "and\":\"ls\"" ++ ['}']]
    (by decide) (by decide) (by decide) (by decide) (by decide) (by decide) (by decide)

/-- C2 (counterexample): the claim quantifies over every argument string that
is valid JSON. Two valid-JSON inputs refute it as stated: the string literal
`"hi"` parses as JSON but the reassembler never emits the call (zero
emissions, the call stays in the pending buffer), and for the padded object
(an object text followed by one space, still accepted by `JSON.parse`) split
after the closing brace, the emitted `rawArguments` is the unpadded prefix,
not the concatenation of the fragments — so the splitting points do affect
the final output. -/
theorem reassembler_split_dependent :
    (jsonParseOk (chars "\"hi\"") = true ∧
      runConvert (argFragDeltas [] (chars "bash") [chars "\"hi\""]) [] =
        ([], [(0, ⟨[], chars "bash", chars "\"hi\""⟩)])) ∧
    (jsonParseOk ('{' :: chars "\"a\":1" ++ ['}', ' ']) = true ∧
      runConvert (argFragDeltas [] (chars "bash")
          ['{' :: chars "\"a\":1" ++ ['}'], [' ']]) [] =
        ([SChunk.toolCalls [⟨[], chars "bash", '{' :: chars "\"a\":1" ++ ['}']⟩]],
          [(0, ⟨[], [], [' ']⟩)]) ∧
      '{' :: chars "\"a\":1" ++ ['}'] ≠ '{' :: chars "\"a\":1" ++ ['}', ' ']) := by
  decide

/-- Witness for `fragment_accumulation_per_index` at a concrete fragment
sequence: a later id part is dropped, later name and argument parts are
concatenated. -/
theorem fragment_accumulation_per_index_witness :
    List.foldl applyFragment []
        [⟨0, chars "id0", chars "ba", ['{']⟩, ⟨0, chars "id1", chars "sh", ['}']⟩]
      = [(0, ⟨chars "id0", chars "bash", ['{', '}']⟩)] := by
  have h := fragment_accumulation_per_index 0 ⟨0, chars "id0", chars "ba", ['{']⟩
    [⟨0, chars "id1", chars "sh", ['}']⟩] rfl (by decide)
  simpa using h

/-! ### Legacy loop facts -/

theorem consumeDeltas_no_fire (abortAt : Option Nat) (ds : List LegacyDelta) :
    ∀ (acc : AccMsg) (y : Bool) (k : Nat),
      (∀ i, i < ds.length → abortFires abortAt (k + i) = false) →
      (consumeDeltas abortAt ds acc y k).cancelled = false ∧
      (consumeDeltas abortAt ds acc y k).acc = ds.foldl reduceDelta acc ∧
      (consumeDeltas abortAt ds acc y k).checks = k + ds.length := by
  induction ds with
  | nil =>
    intro acc y k _
    exact ⟨rfl, rfl, rfl⟩
  | cons d ds ih =>
    intro acc y k hk
    have h0 : abortFires abortAt k = false := by
      have := hk 0 (by simp)
      simpa using this
    have hrest := ih (reduceDelta acc d)
      (y || (!y &&
        (match (reduceDelta acc d).tool_calls with
         | some tcs => !tcs.isEmpty && tcs.any (fun t => !t.name.isEmpty)
         | none => false))) (k + 1)
      (fun i hi => by
        have := hk (i + 1) (by simpa using Nat.succ_lt_succ hi)
        simpa [Nat.add_assoc, Nat.add_comm 1 i] using this)
    simp only [consumeDeltas, h0, Bool.false_eq_true, if_false]
    refine ⟨hrest.1, hrest.2.1, ?_⟩
    rw [hrest.2.2]
    simp [List.length_cons]
    omega

theorem abortFires_none (k : Nat) : abortFires none k = false := rfl

theorem execToolsLoop_no_fire (impls : ToolImpls) (abortAt : Option Nat)
    (tcs : List AccToolCall) :
    ∀ (msgs : List LMsg) (k : Nat),
      (∀ i, i < tcs.length → abortFires abortAt (k + i) = false) →
      execToolsLoop impls abortAt tcs msgs k =
        ⟨tcs.map (fun tc => LChunk.toolResult tc (executeTool impls (toReq tc))),
         (tcs.map (fun tc => [LEvent.execTool (toReq tc),
            LEvent.appendToolResult (toolMsgOf impls tc)])).flatten,
         msgs ++ tcs.map (toolMsgOf impls), k + tcs.length, false⟩ := by
  induction tcs with
  | nil =>
    intro msgs k _
    simp [execToolsLoop]
  | cons tc tcs ih =>
    intro msgs k hk
    have h0 : abortFires abortAt k = false := by
      have := hk 0 (by simp)
      simpa using this
    have hrest := ih (msgs ++ [toolMsgOf impls tc]) (k + 1)
      (fun i hi => by
        have := hk (i + 1) (by simpa using Nat.succ_lt_succ hi)
        simpa [Nat.add_assoc, Nat.add_comm 1 i] using this)
    simp only [execToolsLoop, h0, Bool.false_eq_true, if_false, hrest]
    simp [ExecResult.mk.injEq, List.append_assoc]
    omega

/-- The shape of a round that finds tool calls, with no abort signal: the
provider is consulted once, the assistant message (content plus the
accumulated tool calls) is appended, then the calls are dispatched
sequentially, each result message appended before the next dispatch. -/
theorem processRound_tools_spec (p : List LMsg → List LegacyDelta) (impls : ToolImpls)
    (msgs : List LMsg) (k : Nat) (tcs : List AccToolCall)
    (hacc : ((p msgs).foldl reduceDelta ⟨none, none⟩).tool_calls = some tcs)
    (hne : tcs ≠ []) :
    (processRound p impls none msgs k).events =
      [LEvent.consult msgs,
       LEvent.appendAssistant (LMsg.assistant
         ((((p msgs).foldl reduceDelta ⟨none, none⟩).content).getD []) (some tcs))] ++
      (tcs.map (fun tc => [LEvent.execTool (toReq tc),
        LEvent.appendToolResult (toolMsgOf impls tc)])).flatten ∧
    (processRound p impls none msgs k).msgs =
      (msgs ++ [LMsg.assistant
        ((((p msgs).foldl reduceDelta ⟨none, none⟩).content).getD []) (some tcs)]) ++
      tcs.map (toolMsgOf impls) ∧
    (processRound p impls none msgs k).checks = k + 1 + (p msgs).length + tcs.length ∧
    (processRound p impls none msgs k).exit = RoundExit.tools := by
  obtain ⟨hc1, hc2, hc3⟩ :=
    consumeDeltas_no_fire none (p msgs) ⟨none, none⟩ false (k + 1) (fun i _ => rfl)
  rcases tcs with _ | ⟨t0, trest⟩
  · exact absurd rfl hne
  · have hexec := execToolsLoop_no_fire impls none (t0 :: trest)
      ((msgs ++ [LMsg.assistant ((((p msgs).foldl reduceDelta ⟨none, none⟩).content).getD [])
        (some (t0 :: trest))])) (k + 1 + (p msgs).length) (fun i _ => rfl)
    unfold processRound
    rw [abortFires_none]
    simp only [Bool.false_eq_true, if_false, hc1, hc2, hc3, hacc]
    rw [hexec]
    refine ⟨rfl, rfl, ?_, rfl⟩
    simp

theorem legacyLoop_succ_tools (p : List LMsg → List LegacyDelta) (impls : ToolImpls)
    (abortAt : Option Nat) (n : Nat) (msgs : List LMsg) (k : Nat)
    (h : (processRound p impls abortAt msgs k).exit = RoundExit.tools) :
    legacyLoop p impls abortAt (n + 1) msgs k =
      ⟨(processRound p impls abortAt msgs k).outs ++
        (legacyLoop p impls abortAt n (processRound p impls abortAt msgs k).msgs
          (processRound p impls abortAt msgs k).checks).outs,
       (processRound p impls abortAt msgs k).events ++
        (legacyLoop p impls abortAt n (processRound p impls abortAt msgs k).msgs
          (processRound p impls abortAt msgs k).checks).events,
       (legacyLoop p impls abortAt n (processRound p impls abortAt msgs k).msgs
          (processRound p impls abortAt msgs k).checks).msgs⟩ := by
  simp only [legacyLoop, h]

theorem legacyLoop_succ_cancelled (p : List LMsg → List LegacyDelta) (impls : ToolImpls)
    (abortAt : Option Nat) (n : Nat) (msgs : List LMsg) (k : Nat)
    (h : (processRound p impls abortAt msgs k).exit = RoundExit.cancelled) :
    legacyLoop p impls abortAt (n + 1) msgs k =
      ⟨(processRound p impls abortAt msgs k).outs,
       (processRound p impls abortAt msgs k).events,
       (processRound p impls abortAt msgs k).msgs⟩ := by
  simp only [legacyLoop, h]

theorem no_consult_in_exec_events (impls : ToolImpls) (tcs : List AccToolCall) :
    ((tcs.map (fun tc => [LEvent.execTool (toReq tc),
      LEvent.appendToolResult (toolMsgOf impls tc)])).flatten.filter isConsult) = [] := by
  induction tcs with
  | nil => rfl
  | cons tc tcs ih => simp [isConsult, ih]

theorem legacyLoop_cap_aux (p : List LMsg → List LegacyDelta) (impls : ToolImpls)
    (halways : ∀ msgs, ∃ t ts,
      ((p msgs).foldl reduceDelta ⟨none, none⟩).tool_calls = some (t :: ts)) :
    ∀ (n : Nat) (msgs : List LMsg) (k : Nat),
      ((legacyLoop p impls none n msgs k).events.filter isConsult).length = n ∧
      ∃ pre, (legacyLoop p impls none n msgs k).outs =
        pre ++ [LChunk.content capNotice, LChunk.done] := by
  intro n
  induction n with
  | zero =>
    intro msgs k
    exact ⟨rfl, ⟨[], rfl⟩⟩
  | succ n ih =>
    intro msgs k
    obtain ⟨t, ts, hacc⟩ := halways msgs
    obtain ⟨hev, _, _, hexit⟩ := processRound_tools_spec p impls msgs k (t :: ts) hacc (by simp)
    rw [legacyLoop_succ_tools p impls none n msgs k hexit]
    obtain ⟨ihlen, pre, ihouts⟩ := ih (processRound p impls none msgs k).msgs
      (processRound p impls none msgs k).checks
    constructor
    · rw [List.filter_append, List.length_append, ihlen, hev, List.filter_append,
        no_consult_in_exec_events]
      simp [isConsult, Nat.add_comm]
    · exact ⟨(processRound p impls none msgs k).outs ++ pre, by simp [ihouts]⟩

/-- C1 (amended, legacy path): when the provider returns at least one tool
call in every round, the legacy streaming loop consults the provider exactly
`maxToolRounds = 30` times for one user submission, then stops: the output
stream ends with the cap-reached diagnostic content followed by `done`. -/
theorem legacy_loop_round_cap (p : List LMsg → List LegacyDelta) (impls : ToolImpls)
    (history : List LMsg) (userText : LC)
    (halways : ∀ msgs, ∃ t ts,
      ((p msgs).foldl reduceDelta ⟨none, none⟩).tool_calls = some (t :: ts)) :
    ((legacyRun p impls none history userText).events.filter isConsult).length = 30 ∧
    ∃ pre, (legacyRun p impls none history userText).outs =
      pre ++ [LChunk.content capNotice, LChunk.done] :=
  legacyLoop_cap_aux p impls halways maxToolRounds (history ++ [LMsg.user userText]) 0

/-- Witness for `legacy_loop_round_cap`: the constant one-tool-call provider
stub reaches the cap after exactly 30 rounds. -/
theorem legacy_loop_round_cap_witness :
    ((legacyRun oneToolProvider okImpls none [] (chars "go")).events.filter
      isConsult).length = 30 ∧
    ∃ pre, (legacyRun oneToolProvider okImpls none [] (chars "go")).outs =
      pre ++ [LChunk.content capNotice, LChunk.done] :=
  legacy_loop_round_cap oneToolProvider okImpls [] (chars "go")
    (fun _ => ⟨⟨chars "1", chars "bash", ['{', '}']⟩, [], rfl⟩)

/-- C1 (counterexample): the round cap does not hold for every submission
path. On the universal base class path, `continueAfterToolExecution` recurses
with no round counter: against a provider stub that returns one more tool
call forever, a run given 31 continuation-fuel units performs 32 provider
consultations and 32 tool-call rounds with neither a `done` event nor any
cap-reached diagnostic — the loop does not terminate at 30 rounds. -/
theorem universal_continuation_unbounded_rounds :
    (uniProcessStream uniToolProvider okToolHandler 31 [] (chars "go")).consults = 32 ∧
    ((uniProcessStream uniToolProvider okToolHandler 31 [] (chars "go")).outs.filter
      (fun c => match c with | SChunk.toolCalls _ => true | _ => false)).length = 32 ∧
    ((uniProcessStream uniToolProvider okToolHandler 31 [] (chars "go")).outs.filter
      (fun c => match c with | SChunk.done _ => true | _ => false)) = [] := by
  decide

/-- C3: after a turn whose accumulated message carries tool calls, the
events of the round are, in program order: the provider consultation, the
append of the assistant message carrying those tool calls, and then for each
call in order the dispatch followed by the append of its result message — so
the assistant message is in history before any tool executes, and call k+1
is not dispatched until call k's result message has been appended. -/
theorem tools_dispatched_sequentially (p : List LMsg → List LegacyDelta)
    (impls : ToolImpls) (msgs : List LMsg) (k : Nat) (tcs : List AccToolCall)
    (hacc : ((p msgs).foldl reduceDelta ⟨none, none⟩).tool_calls = some tcs)
    (hne : tcs ≠ []) :
    (processRound p impls none msgs k).events =
      [LEvent.consult msgs,
       LEvent.appendAssistant (LMsg.assistant
         ((((p msgs).foldl reduceDelta ⟨none, none⟩).content).getD []) (some tcs))] ++
      (tcs.map (fun tc => [LEvent.execTool (toReq tc),
        LEvent.appendToolResult (toolMsgOf impls tc)])).flatten ∧
    (processRound p impls none msgs k).msgs =
      (msgs ++ [LMsg.assistant
        ((((p msgs).foldl reduceDelta ⟨none, none⟩).content).getD []) (some tcs)]) ++
      tcs.map (toolMsgOf impls) := by
  obtain ⟨h1, h2, _, _⟩ := processRound_tools_spec p impls msgs k tcs hacc hne
  exact ⟨h1, h2⟩

/-- Witness for `tools_dispatched_sequentially`: a turn with two tool calls. -/
theorem tools_dispatched_sequentially_witness :
    (processRound twoToolProvider okImpls none [] 0).events =
      [LEvent.consult [],
       LEvent.appendAssistant (LMsg.assistant []
         (some [⟨chars "1", chars "view_file", ['{', '}']⟩,
                ⟨chars "2", chars "bash", ['{', '}']⟩]))] ++
      (([⟨chars "1", chars "view_file", ['{', '}']⟩,
         ⟨chars "2", chars "bash", ['{', '}']⟩] : List AccToolCall).map
        (fun tc => [LEvent.execTool (toReq tc),
          LEvent.appendToolResult (toolMsgOf okImpls tc)])).flatten ∧
    (processRound twoToolProvider okImpls none [] 0).msgs =
      ([] ++ [LMsg.assistant []
        (some [⟨chars "1", chars "view_file", ['{', '}']⟩,
               ⟨chars "2", chars "bash", ['{', '}']⟩])]) ++
      ([⟨chars "1", chars "view_file", ['{', '}']⟩,
        ⟨chars "2", chars "bash", ['{', '}']⟩] : List AccToolCall).map
        (toolMsgOf okImpls) := by
  have h := tools_dispatched_sequentially twoToolProvider okImpls [] 0
    [⟨chars "1", chars "view_file", ['{', '}']⟩, ⟨chars "2", chars "bash", ['{', '}']⟩]
    rfl (by decide)
  simpa using h

/-! ### C6 and C7: tool dispatch failure handling -/

theorem executeTool_of_lookup (impls : ToolImpls) (tc : ToolCallReq)
    (f : LC → Except LC ToolResult)
    (hjson : jsonParseOk tc.args = true)
    (hl : lookupImpl impls tc.name = some f) :
    executeTool impls tc = runCatch (f tc.args) := by
  unfold executeTool lookupImpl at *
  split_ifs at hl ⊢ <;> simp_all

/-- C6 (counterexample): dispatching an unknown tool name returns a failure
result whose message is `"Unknown tool: <name>"`, not the claimed
`"Tool not found"`. -/
theorem unknown_tool_message_not_spec :
    executeTool okImpls ⟨chars "c1", chars "nonexistent", ['{', '}']⟩ =
      ⟨false, [], chars "Unknown tool: nonexistent"⟩ ∧
    chars "Unknown tool: nonexistent" ≠ chars "Tool not found" := by
  constructor
  · decide
  · decide

/-- C6 (amended): dispatching a tool call whose name is not in the dispatch
table returns the failure result
`{success: false, error: "Unknown tool: <name>"}` — a plain return value for
every tool-implementation behaviour, never a thrown exception. -/
theorem unknown_tool_returns_failure (impls : ToolImpls) (tc : ToolCallReq)
    (hjson : jsonParseOk tc.args = true)
    (hunknown : lookupImpl impls tc.name = none) :
    executeTool impls tc = ⟨false, [], chars "Unknown tool: " ++ tc.name⟩ := by
  unfold executeTool lookupImpl at *
  split_ifs at hunknown ⊢ <;> simp_all

/-- Witness for `unknown_tool_returns_failure`. -/
theorem unknown_tool_returns_failure_witness :
    executeTool okImpls ⟨chars "c1", chars "nonexistent", ['{', '}']⟩ =
      ⟨false, [], chars "Unknown tool: " ++ chars "nonexistent"⟩ :=
  unknown_tool_returns_failure okImpls ⟨chars "c1", chars "nonexistent", ['{', '}']⟩
    (by decide) rfl

/-- C7: a tool handler that throws is caught at the dispatch boundary and
normalised to a failure `ToolResult`; in the round that dispatched it, the
failure is appended to history as the call's tool-result message like any
other result, the round still ends in the `tools` state, and the loop goes
on to the next round (the run's events are the round's events followed by
the events of the continued loop). -/
theorem tool_failure_absorbed (p : List LMsg → List LegacyDelta) (impls : ToolImpls)
    (msgs : List LMsg) (k : Nat) (tcs : List AccToolCall) (tc : AccToolCall)
    (f : LC → Except LC ToolResult) (e : LC)
    (hacc : ((p msgs).foldl reduceDelta ⟨none, none⟩).tool_calls = some tcs)
    (hmem : tc ∈ tcs)
    (hl : lookupImpl impls tc.name = some f)
    (hjson : jsonParseOk tc.args = true)
    (hthrow : f tc.args = .error e) :
    executeTool impls (toReq tc) = ⟨false, [], chars "Tool execution error: " ++ e⟩ ∧
    LEvent.appendToolResult (LMsg.tool (chars "Tool execution error: " ++ e) tc.id) ∈
      (processRound p impls none msgs k).events ∧
    (processRound p impls none msgs k).exit = RoundExit.tools ∧
    ∀ n, (legacyLoop p impls none (n + 1) msgs k).events =
      (processRound p impls none msgs k).events ++
      (legacyLoop p impls none n (processRound p impls none msgs k).msgs
        (processRound p impls none msgs k).checks).events := by
  have hexec : executeTool impls (toReq tc) =
      ⟨false, [], chars "Tool execution error: " ++ e⟩ := by
    rw [executeTool_of_lookup impls (toReq tc) f hjson hl]
    show runCatch (f tc.args) = _
    rw [hthrow]
    rfl
  have hne : tcs ≠ [] := by
    intro hn
    rw [hn] at hmem
    exact absurd hmem (List.not_mem_nil tc)
  obtain ⟨hev, _, _, hexit⟩ := processRound_tools_spec p impls msgs k tcs hacc hne
  refine ⟨hexec, ?_, hexit, ?_⟩
  · rw [hev]
    have htmsg : toolMsgOf impls tc =
        LMsg.tool (chars "Tool execution error: " ++ e) tc.id := by
      unfold toolMsgOf
      rw [hexec]
      unfold toolResultContent
      rw [show ((chars "Tool execution error: " ++ e).isEmpty) = false from rfl]
      rfl
    refine List.mem_append_right _ ?_
    rw [← htmsg]
    have : LEvent.appendToolResult (toolMsgOf impls tc) ∈
        [LEvent.execTool (toReq tc), LEvent.appendToolResult (toolMsgOf impls tc)] := by
      simp
    exact List.mem_flatten.mpr ⟨_, List.mem_map_of_mem _ hmem, this⟩
  · intro n
    rw [legacyLoop_succ_tools p impls none n msgs k hexit]

/-- Witness for `tool_failure_absorbed`: a bash handler that throws. -/
theorem tool_failure_absorbed_witness :
    executeTool failBashImpls (toReq ⟨chars "1", chars "bash", ['{', '}']⟩) =
      ⟨false, [], chars "Tool execution error: " ++ chars "boom"⟩ ∧
    LEvent.appendToolResult (LMsg.tool (chars "Tool execution error: " ++ chars "boom")
      (chars "1")) ∈ (processRound oneToolProvider failBashImpls none [] 0).events ∧
    (processRound oneToolProvider failBashImpls none [] 0).exit = RoundExit.tools ∧
    ∀ n, (legacyLoop oneToolProvider failBashImpls none (n + 1) [] 0).events =
      (processRound oneToolProvider failBashImpls none [] 0).events ++
      (legacyLoop oneToolProvider failBashImpls none n
        (processRound oneToolProvider failBashImpls none [] 0).msgs
        (processRound oneToolProvider failBashImpls none [] 0).checks).events :=
  tool_failure_absorbed oneToolProvider failBashImpls [] 0
    [⟨chars "1", chars "bash", ['{', '}']⟩] ⟨chars "1", chars "bash", ['{', '}']⟩
    failBashImpls.bash (chars "boom") rfl (by simp) rfl (by decide) rfl

/-! ### C8: cancellation at suspension points -/

theorem consumeDeltas_fires (a : Nat) (ds : List LegacyDelta) :
    ∀ (acc : AccMsg) (y : Bool) (k : Nat), k ≤ a → a < k + ds.length →
      (consumeDeltas (some a) ds acc y k).cancelled = true ∧
      ∃ pre, (consumeDeltas (some a) ds acc y k).outs =
        pre ++ [LChunk.content cancelNotice, LChunk.done] := by
  induction ds with
  | nil =>
    intro acc y k h1 h2
    simp at h2
    omega
  | cons d ds ih =>
    intro acc y k h1 h2
    by_cases hak : a ≤ k
    · have hfire : abortFires (some a) k = true := by
        simp [abortFires, hak]
      have hstep : consumeDeltas (some a) (d :: ds) acc y k =
          ⟨[LChunk.content cancelNotice, LChunk.done], acc, y, k + 1, true⟩ := by
        simp [consumeDeltas, hfire]
      rw [hstep]
      exact ⟨rfl, ⟨[], rfl⟩⟩
    · have hnofire : abortFires (some a) k = false := by
        simp [abortFires]
        omega
      have hrest := ih (reduceDelta acc d)
        (y || (!y &&
          (match (reduceDelta acc d).tool_calls with
           | some tcs => !tcs.isEmpty && tcs.any (fun t => !t.name.isEmpty)
           | none => false))) (k + 1) (by omega)
        (by
          simp only [List.length_cons] at h2
          omega)
      simp only [consumeDeltas, hnofire, Bool.false_eq_true, if_false]
      refine ⟨hrest.1, ?_⟩
      obtain ⟨pre, hpre⟩ := hrest.2
      exact ⟨_, by rw [hpre, ← List.append_assoc]⟩

theorem execToolsLoop_fires_at (impls : ToolImpls) (a : Nat) :
    ∀ (j : Nat) (tcs : List AccToolCall) (msgs : List LMsg) (k : Nat),
      j < tcs.length → a = k + j →
      execToolsLoop impls (some a) tcs msgs k =
        ⟨(tcs.take j).map (fun tc => LChunk.toolResult tc (executeTool impls (toReq tc))) ++
          [LChunk.content cancelNotice, LChunk.done],
         ((tcs.take j).map (fun tc => [LEvent.execTool (toReq tc),
            LEvent.appendToolResult (toolMsgOf impls tc)])).flatten,
         msgs ++ (tcs.take j).map (toolMsgOf impls), k + j + 1, true⟩ := by
  intro j
  induction j with
  | zero =>
    intro tcs msgs k hj ha
    rcases tcs with _ | ⟨tc, tcs⟩
    · simp at hj
    · have hfire : abortFires (some a) k = true := by
        simp [abortFires, ha]
      simp [execToolsLoop, hfire]
  | succ j ih =>
    intro tcs msgs k hj ha
    rcases tcs with _ | ⟨tc, tcs⟩
    · simp at hj
    · have hnofire : abortFires (some a) k = false := by
        simp [abortFires]
        omega
      have hrest := ih tcs (msgs ++ [toolMsgOf impls tc]) (k + 1)
        (by simpa using Nat.lt_of_succ_lt_succ (by simpa using hj)) (by omega)
      simp only [execToolsLoop, hnofire, Bool.false_eq_true, if_false, hrest]
      simp [ExecResult.mk.injEq, List.append_assoc, List.take_succ_cons]
      omega

theorem exec_events_filter_length (impls : ToolImpls) (l : List AccToolCall) :
    ((l.map (fun tc => [LEvent.execTool (toReq tc),
      LEvent.appendToolResult (toolMsgOf impls tc)])).flatten.filter isExecEvent).length
      = l.length := by
  induction l with
  | nil => rfl
  | cons tc l ih =>
    rw [List.map_cons, List.flatten_cons, List.filter_append,
      show List.filter isExecEvent [LEvent.execTool (toReq tc),
        LEvent.appendToolResult (toolMsgOf impls tc)] = [LEvent.execTool (toReq tc)] from rfl,
      List.length_append, ih]
    simp [Nat.add_comm]

/-- C8: the abort signal is read at the suspension points. First conjunct —
a signal raised while the provider stream is still being read: the round
emits the cancellation notice and terminal `done`, records nothing beyond
the provider consultation (in particular it appends no assistant message
with pending tool calls and dispatches no tool), and leaves the message
history unchanged. Second conjunct — a signal raised at the check before
tool `j` of the batch: exactly the first `j` calls are dispatched, their
results are still appended to history together with the assistant message,
and the round ends with the cancellation notice and `done`. -/
theorem cancellation_at_suspension_points (p : List LMsg → List LegacyDelta)
    (impls : ToolImpls) (msgs : List LMsg) (k a : Nat) :
    (k < a → a ≤ k + (p msgs).length →
      (processRound p impls (some a) msgs k).exit = RoundExit.cancelled ∧
      (processRound p impls (some a) msgs k).events = [LEvent.consult msgs] ∧
      (processRound p impls (some a) msgs k).msgs = msgs ∧
      ∃ pre, (processRound p impls (some a) msgs k).outs =
        pre ++ [LChunk.content cancelNotice, LChunk.done]) ∧
    (∀ tcs j, ((p msgs).foldl reduceDelta ⟨none, none⟩).tool_calls = some tcs →
      j < tcs.length → a = k + 1 + (p msgs).length + j →
      (processRound p impls (some a) msgs k).exit = RoundExit.cancelled ∧
      ((processRound p impls (some a) msgs k).events.filter isExecEvent).length = j ∧
      (processRound p impls (some a) msgs k).msgs =
        (msgs ++ [LMsg.assistant
          ((((p msgs).foldl reduceDelta ⟨none, none⟩).content).getD [])
          (some tcs)]) ++ (tcs.take j).map (toolMsgOf impls) ∧
      ∃ pre, (processRound p impls (some a) msgs k).outs =
        pre ++ [LChunk.content cancelNotice, LChunk.done]) := by
  constructor
  · intro h1 h2
    have hnofire : abortFires (some a) k = false := by
      simp [abortFires]
      omega
    obtain ⟨hc1, hc2⟩ := consumeDeltas_fires a (p msgs) ⟨none, none⟩ false (k + 1)
      (by omega) (by omega)
    unfold processRound
    simp only [hnofire, Bool.false_eq_true, if_false, hc1, if_true]
    exact ⟨by trivial, by trivial, by trivial, hc2⟩
  · intro tcs j hacc hj ha
    have hnofire : abortFires (some a) k = false := by
      simp [abortFires]
      omega
    obtain ⟨hc1, hc2, hc3⟩ := consumeDeltas_no_fire (some a) (p msgs) ⟨none, none⟩
      false (k + 1)
      (fun i hi => by
        simp [abortFires]
        omega)
    rcases tcs with _ | ⟨t0, trest⟩
    · simp at hj
    · have hexec := execToolsLoop_fires_at impls a j (t0 :: trest)
        (msgs ++ [LMsg.assistant ((((p msgs).foldl reduceDelta ⟨none, none⟩).content).getD [])
          (some (t0 :: trest))]) (k + 1 + (p msgs).length)
        hj (by omega)
      unfold processRound
      simp only [hnofire, Bool.false_eq_true, if_false, hc1, hc2, hc3, hacc]
      rw [show k + 1 + (p msgs).length = k + 1 + (p msgs).length from rfl] at hexec
      rw [hexec]
      refine ⟨rfl, ?_, ?_, ?_⟩
      · simp only [List.filter_append, List.length_append]
        rw [exec_events_filter_length]
        have : (List.filter isExecEvent [LEvent.consult msgs,
            LEvent.appendAssistant (LMsg.assistant
              ((((p msgs).foldl reduceDelta ⟨none, none⟩).content).getD [])
              (some (t0 :: trest)))]) = [] := rfl
        rw [this]
        simp only [List.length_nil, List.length_take, Nat.zero_add]
        omega
      · rfl
      · exact ⟨_, by rw [← List.append_assoc]⟩

/-- Witness for `cancellation_at_suspension_points`: both suspension points
hit against the two-delta content stream and the one-tool-call stream. -/
theorem cancellation_at_suspension_points_witness :
    ((processRound contentProvider okImpls (some 2) [] 0).exit = RoundExit.cancelled ∧
      (processRound contentProvider okImpls (some 2) [] 0).events =
        [LEvent.consult []] ∧
      (processRound contentProvider okImpls (some 2) [] 0).msgs = [] ∧
      ∃ pre, (processRound contentProvider okImpls (some 2) [] 0).outs =
        pre ++ [LChunk.content cancelNotice, LChunk.done]) ∧
    ((processRound oneToolProvider okImpls (some 2) [] 0).exit = RoundExit.cancelled ∧
      ((processRound oneToolProvider okImpls (some 2) [] 0).events.filter
        isExecEvent).length = 0 ∧
      (processRound oneToolProvider okImpls (some 2) [] 0).msgs =
        ([] ++ [LMsg.assistant ((((oneToolProvider []).foldl reduceDelta
          ⟨none, none⟩).content).getD [])
          (some [⟨chars "1", chars "bash", ['{', '}']⟩])]) ++
        (([⟨chars "1", chars "bash", ['{', '}']⟩] : List AccToolCall).take 0).map
          (toolMsgOf okImpls) ∧
      ∃ pre, (processRound oneToolProvider okImpls (some 2) [] 0).outs =
        pre ++ [LChunk.content cancelNotice, LChunk.done]) :=
  ⟨(cancellation_at_suspension_points contentProvider okImpls [] 0 2).1
      (by decide) (by decide),
   (cancellation_at_suspension_points oneToolProvider okImpls [] 0 2).2
      [⟨chars "1", chars "bash", ['{', '}']⟩] 0 rfl (by decide) (by decide)⟩

/-! ### C9 and C10 -/

/-- C9: switching the active provider mid-session leaves the conversation
history unchanged (no message added, removed or modified), and the next
streamed request after the switch passes the full prior history — including
every tool-role message produced under the previous provider — followed by
the new user message, to the newly active adapter. -/
theorem switch_provider_preserves_history (st : AgentState) (newProvider : Nat)
    (text : LC) :
    (switchProvider st newProvider).messages = st.messages ∧
    submitRequestMessages (switchProvider st newProvider) text =
      st.messages ++ [UMsg.user text] ∧
    ∀ c i, UMsg.tool c i ∈ st.messages →
      UMsg.tool c i ∈ submitRequestMessages (switchProvider st newProvider) text := by
  refine ⟨rfl, rfl, ?_⟩
  intro c i hm
  exact List.mem_append_left _ hm

/-- Witness for `switch_provider_preserves_history`: a session holding a
tool-role message produced under provider 0, switched to provider 1. -/
theorem switch_provider_preserves_history_witness :
    (switchProvider ⟨0, [UMsg.user (chars "hi"), UMsg.tool (chars "ok") (chars "1")], []⟩
      1).messages = [UMsg.user (chars "hi"), UMsg.tool (chars "ok") (chars "1")] ∧
    UMsg.tool (chars "ok") (chars "1") ∈ submitRequestMessages
      (switchProvider ⟨0, [UMsg.user (chars "hi"), UMsg.tool (chars "ok") (chars "1")], []⟩ 1)
      (chars "next") :=
  ⟨(switch_provider_preserves_history
      ⟨0, [UMsg.user (chars "hi"), UMsg.tool (chars "ok") (chars "1")], []⟩ 1
      (chars "next")).1,
   (switch_provider_preserves_history
      ⟨0, [UMsg.user (chars "hi"), UMsg.tool (chars "ok") (chars "1")], []⟩ 1
      (chars "next")).2.2 (chars "ok") (chars "1") (by simp)⟩

/-- C10: `getPublicConfig` returns every configuration field except the
apiKey, plus `hasApiKey`, true exactly when an apiKey is present (JS-truthy:
a nonempty key string — an absent or empty key reads false); the key value
itself does not appear in the returned shape, so two configurations
differing only in their (present) apiKey values produce identical public
configs. -/
theorem public_config_hides_api_key (c : ProviderConfig) (k1 k2 : Option LC)
    (h1 : apiKeyTruthy k1 = true) (h2 : apiKeyTruthy k2 = true) :
    (getPublicConfig c).ptype = c.ptype ∧
    (getPublicConfig c).name = c.name ∧
    (getPublicConfig c).baseURL = c.baseURL ∧
    (getPublicConfig c).timeout = c.timeout ∧
    (getPublicConfig c).maxRetries = c.maxRetries ∧
    (getPublicConfig c).hasApiKey = apiKeyTruthy c.apiKey ∧
    getPublicConfig { c with apiKey := k1 } = getPublicConfig { c with apiKey := k2 } := by
  refine ⟨rfl, rfl, rfl, rfl, rfl, rfl, ?_⟩
  unfold getPublicConfig
  simp [h1, h2]

/-- Witness for `public_config_hides_api_key`: two distinct nonempty keys. -/
theorem public_config_hides_api_key_witness :
    (getPublicConfig ⟨chars "grok", chars "Grok", some (chars "k"), none, some 360000,
      none⟩).hasApiKey = apiKeyTruthy (some (chars "k")) ∧
    getPublicConfig ⟨chars "grok", chars "Grok", some (chars "secret-a"), none,
        some 360000, none⟩ =
      getPublicConfig ⟨chars "grok", chars "Grok", some (chars "secret-b"), none,
        some 360000, none⟩ :=
  ⟨(public_config_hides_api_key
      ⟨chars "grok", chars "Grok", some (chars "k"), none, some 360000, none⟩
      (some (chars "secret-a")) (some (chars "secret-b")) (by decide) (by decide)).2.2.2.2.2.1,
   (public_config_hides_api_key
      ⟨chars "grok", chars "Grok", some (chars "secret-a"), none, some 360000, none⟩
      (some (chars "secret-a")) (some (chars "secret-b")) (by decide) (by decide)).2.2.2.2.2.2⟩

end AgentCli
